import Mathlib

/-!
# Verification of the `IpcStreamFactory` connection multiplexer

Shallow embedding of `src/coreclr/src/vm/ipcstreamfactory.cpp`: the
connection-state variants (`ClientConnectionState`, `ServerConnectionState`),
the registry operations (`CreateServer`, `CreateClient`,
`HasActiveConnections`, `CloseConnections`, `Shutdown`), the backoff helper
`GetNextTimeout`, and the acquisition loop `GetNextAvailableStream`.

External collaborators (`DiagnosticsIpc::Connect`, `Accept`, `Poll`,
`SendIpcAdvertise_V1`) are modelled as per-round environment inputs; streams
(`IpcStream*`) are abstract identifiers (`Nat`); a nullable `IpcStream*` is
`Option Nat`.  Error-callback invocations, `Reset` calls, `GetConnectedStream`
calls and `Close` calls are recorded as observable events so that theorems can
speak about them.
-/

namespace IpcStreamFactory

/-- Modelled from the spec: the four timeout constants
(`s_pollTimeoutInfinite`, `s_pollTimeoutMinMs`, `s_pollTimeoutMaxMs`,
`s_pollTimeoutFalloffFactor`) are declared in `ipcstreamfactory.h`, which is
not part of the sources; the spec (§4.4) names them `Infinite`, `Minimum`,
`Maximum` and a "fixed falloff multiplier" with geometric growth capped at
`Maximum`.  We keep them as parameters: `infiniteMs` is the sentinel for the
infinite timeout, `minMs`/`maxMs` the minimum/maximum in milliseconds, and the
falloff multiplier is the rational `num / den` (the C code multiplies by a
`float` constant and truncates the product back to `int32_t`; for a factor of
the form `num/den` and operands small enough that the product is exactly
representable in `float`, that equals truncated integer division, i.e.
`Int.tdiv`). -/
structure PollParams where
  infiniteMs : Int
  minMs : Int
  maxMs : Int
  num : Int
  den : Int
  deriving Repr, DecidableEq

/-- Modelled from the spec: the qualitative constraints §4.4 places on the
constants — the sentinel is not a valid millisecond count (negative), the
minimum is positive and below the cap, and the falloff multiplier is a
genuine growth factor (`> 1`). -/
def PollParams.WellFormed (p : PollParams) : Prop :=
  p.infiniteMs < 0 ∧ 0 < p.minMs ∧ p.minMs < p.maxMs ∧ 0 < p.den ∧ p.den < p.num

/-- Modelled from the spec: a representative concrete instantiation of the
missing header constants — sentinel `-1`, minimum `10` ms, maximum `500` ms,
falloff factor `5/4` — satisfying `PollParams.WellFormed`.  Used only to
evaluate the model on concrete inputs. -/
def specParams : PollParams := ⟨-1, 10, 500, 5, 4⟩

/-- Embeds `IpcStreamFactory::GetNextTimeout` (ipcstreamfactory.cpp:127-139):

    if (currentTimeoutMs == s_pollTimeoutInfinite)
        return s_pollTimeoutMinMs;
    else
        return (currentTimeoutMs >= s_pollTimeoutMaxMs) ?
                    s_pollTimeoutMaxMs :
                    (int32_t)((float)currentTimeoutMs * s_pollTimeoutFalloffFactor);

The float multiply-then-truncate is `Int.tdiv (t * num) den` (exact whenever
`|t * num|` fits in a `float` mantissa, which covers every value reachable
from the millisecond constants). -/
def GetNextTimeout (p : PollParams) (currentTimeoutMs : Int) : Int :=
  if currentTimeoutMs = p.infiniteMs then
    p.minMs
  else if p.maxMs ≤ currentTimeoutMs then
    p.maxMs
  else
    Int.tdiv (currentTimeoutMs * p.num) p.den

/-- One registered `ConnectionState`: the `ClientConnectionState` carries its
`_pStream` cache (`none` = disconnected), the `ServerConnectionState` only its
listening endpoint. -/
inductive ConnState where
  | client (cached : Option Nat)
  | server
  deriving Repr, DecidableEq

/-- Result of `ClientConnectionState::GetIpcPollHandle`: the `bool` return,
the `_pStream` cache after the call, the stream backing the produced poll
handle (`none` when the call failed and no handle was produced), and the
error-callback messages issued. -/
structure ClientPollResult where
  ok : Bool
  cache : Option Nat
  backing : Option Nat
  callbacks : List String
  deriving Repr, DecidableEq

/-- Embeds `ClientConnectionState::GetIpcPollHandle`
(ipcstreamfactory.cpp:14-38).  `connectResult` is what `_pIpc->Connect`
returns, `advertiseOk` what `DiagnosticsIpc::SendIpcAdvertise_V1` returns.
With a cached stream the handle is `{ nullptr, _pStream, 0, this }`; with an
empty cache the code reconnects: `Connect` failure reports and returns
`false`; advertise failure reports, deletes the fresh connection and returns
`false`; otherwise the fresh stream is cached and backs the handle. -/
def clientGetIpcPollHandle (cached : Option Nat) (connectResult : Option Nat)
    (advertiseOk : Bool) : ClientPollResult :=
  match cached with
  | some s => ⟨true, some s, some s, []⟩
  | none =>
    match connectResult with
    | none => ⟨false, none, none, ["Failed to connect to client connection"]⟩
    | some s =>
      if advertiseOk then ⟨true, some s, some s, []⟩
      else ⟨false, none, none, ["Failed to send advertise message"]⟩

/-- Embeds `ClientConnectionState::Reset` / `ServerConnectionState::Reset`
(ipcstreamfactory.cpp:47-51, 65-68): the client deletes and clears its cached
stream, the server does nothing. -/
def resetConn : ConnState → ConnState
  | .client _ => .client none
  | .server => .server

/-- The `Reset` call applied to the connection at index `i` of the registry
(the code reaches it through the handle's `pUserData` back-pointer). -/
def resetAt (conns : List ConnState) (i : Nat) : List ConnState :=
  match conns.get? i with
  | some c => conns.set i (resetConn c)
  | none => conns

/-- The `revents` classification the `Poll` primitive writes into each
`IpcPollHandle` (diagnosticsipc.h `PollEvents`).  The switch at
ipcstreamfactory.cpp:178-194 has cases for `HANGUP`, `SIGNALED` and `ERR`;
`NONE` and any unknown bit pattern (`UNKNOWN`) fall into `default`. -/
inductive PollEvents where
  | NONE
  | SIGNALED
  | HANGUP
  | ERR
  | UNKNOWN
  deriving Repr, DecidableEq

/-- An ephemeral `IpcStream::DiagnosticsIpc::IpcPollHandle` as the loop uses
it: `owner` is the index of the owning `ConnectionState` (the `pUserData`
back-pointer) and `backing` is the client's `_pStream` behind the handle
(`none` for a server handle, which is backed by the listening endpoint). -/
structure IpcPollHandle where
  owner : Nat
  backing : Option Nat
  deriving Repr, DecidableEq

/-- The external collaborators' behaviour during one iteration of the
acquisition loop: what `Connect` / `SendIpcAdvertise_V1` / `Accept` would
return for the connection at each index, the return value of `Poll`, and the
`revents` classification `Poll` writes into the handle at each position of
the polled array. -/
structure RoundEnv where
  connectResult : Nat → Option Nat
  advertiseOk : Nat → Bool
  acceptResult : Nat → Option Nat
  pollRetval : Int
  revents : Nat → PollEvents

/-- Embeds the handle-collection pass (ipcstreamfactory.cpp:152-164): walk the
registry in order, ask each connection for a poll handle, push the handle on
success and clear `fConnectSuccess` on failure.  Returns the updated registry
(a client may have cached a fresh stream), the pushed handles in order,
`fConnectSuccess`, and the error-callback messages issued. -/
def buildHandles (e : RoundEnv) : List ConnState → Nat →
    List ConnState × List IpcPollHandle × Bool × List String
  | [], _ => ([], [], true, [])
  | .client cached :: rest, i =>
    let r := clientGetIpcPollHandle cached (e.connectResult i) (e.advertiseOk i)
    let q := buildHandles e rest (i + 1)
    (ConnState.client r.cache :: q.1,
     (if r.ok then [IpcPollHandle.mk i r.backing] else []) ++ q.2.1,
     r.ok && q.2.2.1, r.callbacks ++ q.2.2.2)
  | .server :: rest, i =>
    let q := buildHandles e rest (i + 1)
    (ConnState.server :: q.1, IpcPollHandle.mk i none :: q.2.1, q.2.2.1, q.2.2.2)

/-- Embeds `ConnectionState::GetConnectedStream`
(ipcstreamfactory.cpp:40-45, 59-62) invoked on the connection at index `i`:
a client hands over its cached stream and clears the cache; a server returns
whatever `_pIpc->Accept` produces.  Returns the stream and the updated
registry. -/
def getConnectedStream (e : RoundEnv) (conns : List ConnState) (i : Nat) :
    Option Nat × List ConnState :=
  match conns.get? i with
  | some (.client cached) => (cached, conns.set i (.client none))
  | some .server => (e.acceptResult i, conns)
  | none => (none, conns)

/-- The mutable state of the classification pass over one round's handles:
the registry, the `pollTimeoutMs` variable, the `pStream` variable, and the
recorded `GetConnectedStream` / `Reset` invocations. -/
structure ScanState where
  conns : List ConnState
  pollTimeoutMs : Int
  pStream : Option Nat
  claims : List (Nat × Option Nat)
  resets : List Nat
  deriving Repr, DecidableEq

/-- Embeds the classification switch (ipcstreamfactory.cpp:176-195), run over
the handle array in order.  `HANGUP` resets the owner and forces
`pollTimeoutMs` to the minimum; `SIGNALED` claims `GetConnectedStream` only
while `pStream` is still null; `ERR` aborts the whole call immediately
(second component `true`); `NONE`/`UNKNOWN` hit the empty `default` branch. -/
def processHandles (p : PollParams) (e : RoundEnv) :
    List (IpcPollHandle × PollEvents) → ScanState → ScanState × Bool
  | [], s => (s, false)
  | (h, ev) :: rest, s =>
    match ev with
    | .HANGUP =>
      processHandles p e rest
        { s with conns := resetAt s.conns h.owner,
                 pollTimeoutMs := p.minMs,
                 resets := s.resets ++ [h.owner] }
    | .SIGNALED =>
      match s.pStream with
      | none =>
        let g := getConnectedStream e s.conns h.owner
        processHandles p e rest
          { s with conns := g.2, pStream := g.1, claims := s.claims ++ [(h.owner, g.1)] }
      | some _ => processHandles p e rest s
    | .ERR => (s, true)
    | .NONE => processHandles p e rest s
    | .UNKNOWN => processHandles p e rest s

/-- How one iteration of the `while (pStream == nullptr)` loop ends: go
around again, `return nullptr` (the `ERR` case), or exit the loop with a
stream. -/
inductive RoundOutcome where
  | cont
  | retNull
  | retStream (s : Nat)
  deriving Repr, DecidableEq

/-- Everything observable about one iteration of the acquisition loop. -/
structure RoundResult where
  conns : List ConnState
  fConnectSuccess : Bool
  timeoutUsed : Int
  nextTimeout : Int
  scanned : List (IpcPollHandle × PollEvents)
  outcome : RoundOutcome
  claims : List (Nat × Option Nat)
  resets : List Nat
  callbacks : List String

/-- The handle array of one iteration paired with the `revents`
classification `Poll` writes into each position
(ipcstreamfactory.cpp:170, 176-178). -/
def roundHandles (e : RoundEnv) (conns : List ConnState) :
    List (IpcPollHandle × PollEvents) :=
  ((buildHandles e conns 0).2.1).enum.map (fun x => (x.2, e.revents x.1))

/-- The timeout handed to `Poll` this iteration
(ipcstreamfactory.cpp:166-168): `fConnectSuccess ? s_pollTimeoutInfinite :
GetNextTimeout(pollTimeoutMs)`. -/
def roundTimeout (p : PollParams) (e : RoundEnv) (conns : List ConnState)
    (t : Int) : Int :=
  if (buildHandles e conns 0).2.2.1 then p.infiniteMs else GetNextTimeout p t

/-- The classification pass of one iteration
(ipcstreamfactory.cpp:174-196): run only when `Poll` returned non-zero,
starting from the post-collection registry, the timeout chosen for this
iteration, and `pStream = nullptr`. -/
def roundScan (p : PollParams) (e : RoundEnv) (conns : List ConnState)
    (t : Int) : ScanState × Bool :=
  let init : ScanState :=
    ⟨(buildHandles e conns 0).1, roundTimeout p e conns t, none, [], []⟩
  if e.pollRetval ≠ 0 then processHandles p e (roundHandles e conns) init
  else (init, false)

/-- Embeds one iteration of `IpcStreamFactory::GetNextAvailableStream`
(ipcstreamfactory.cpp:150-201): collect handles, choose the timeout, call
`Poll` with it (`timeoutUsed`), and if `Poll` returned non-zero classify
every handle.  `nextTimeout` is the value of the `pollTimeoutMs` variable
carried into the next iteration (a hangup overwrote it with the minimum). -/
def doRound (p : PollParams) (conns : List ConnState) (pollTimeoutMs : Int)
    (e : RoundEnv) : RoundResult :=
  { conns := (roundScan p e conns pollTimeoutMs).1.conns
    fConnectSuccess := (buildHandles e conns 0).2.2.1
    timeoutUsed := roundTimeout p e conns pollTimeoutMs
    nextTimeout := (roundScan p e conns pollTimeoutMs).1.pollTimeoutMs
    scanned := roundHandles e conns
    outcome :=
      if (roundScan p e conns pollTimeoutMs).2 then .retNull
      else
        match (roundScan p e conns pollTimeoutMs).1.pStream with
        | some st => .retStream st
        | none => .cont
    claims := (roundScan p e conns pollTimeoutMs).1.claims
    resets := (roundScan p e conns pollTimeoutMs).1.resets
    callbacks := (buildHandles e conns 0).2.2.2 }

/-- Runs the acquisition loop for as many iterations as `envs` provides
environment behaviour, starting from registry `conns` and timeout variable
`t`.  Returns the iterations actually executed and `some result` if the call
returned within those rounds (`some none` = `nullptr`), `none` if the loop is
still going. -/
def run (p : PollParams) : List RoundEnv → List ConnState → Int →
    List RoundResult × Option (Option Nat)
  | [], _, _ => ([], none)
  | e :: rest, conns, t =>
    let r := doRound p conns t e
    match r.outcome with
    | .cont =>
      let q := run p rest r.conns r.nextTimeout
      (r :: q.1, q.2)
    | .retNull => ([r], some none)
    | .retStream s => ([r], some (some s))

/-- Embeds `IpcStreamFactory::GetNextAvailableStream`
(ipcstreamfactory.cpp:141-204): `pStream = nullptr`, `pollTimeoutMs =
s_pollTimeoutInfinite`, then the iteration loop. -/
def GetNextAvailableStream (p : PollParams) (envs : List RoundEnv)
    (conns : List ConnState) : List RoundResult × Option (Option Nat) :=
  run p envs conns p.infiniteMs

/-- The factory's global registry state: `s_rgpConnectionStates` and
`s_isShutdown` (ipcstreamfactory.cpp:11-12). -/
structure FactoryState where
  conns : List ConnState
  isShutdown : Bool
  deriving Repr, DecidableEq

/-- The static initializers: empty registry, `s_isShutdown = false`. -/
def initialFactory : FactoryState := ⟨[], false⟩

/-- Embeds `IpcStreamFactory::CreateServer` (ipcstreamfactory.cpp:70-90):
`createOk` is whether `DiagnosticsIpc::Create` returned non-null, `listenOk`
whether `Listen` succeeded; a `ServerConnectionState` is pushed only when
both hold. -/
def CreateServer (st : FactoryState) (createOk listenOk : Bool) :
    FactoryState × Bool :=
  if createOk then
    if listenOk then ({ st with conns := st.conns ++ [.server] }, true)
    else (st, false)
  else (st, false)

/-- Embeds `IpcStreamFactory::CreateClient` (ipcstreamfactory.cpp:92-104):
on successful `Create` a `ClientConnectionState` (with empty cache) is
pushed. -/
def CreateClient (st : FactoryState) (createOk : Bool) : FactoryState × Bool :=
  if createOk then ({ st with conns := st.conns ++ [.client none] }, true)
  else (st, false)

/-- Embeds `IpcStreamFactory::HasActiveConnections`
(ipcstreamfactory.cpp:106-109): `!s_isShutdown && s_rgpConnectionStates.Size() > 0`. -/
def HasActiveConnections (st : FactoryState) : Bool :=
  !st.isShutdown && decide (0 < st.conns.length)

/-- Embeds `IpcStreamFactory::Shutdown` (ipcstreamfactory.cpp:117-124).
The second component records the `Close` invocations as pairs
`(connection index, isShutdown argument)`: nothing when the flag was already
set, otherwise `Close(true, callback)` on every registered connection in
order. -/
def Shutdown (st : FactoryState) : FactoryState × List (Nat × Bool) :=
  if st.isShutdown then (st, [])
  else ({ st with isShutdown := true },
        (List.range st.conns.length).map (fun i => (i, true)))

/-- The registry after a (possibly unfinished) acquisition call whose executed
rounds were `rs`: the static `s_rgpConnectionStates` as the last round left
it, or the initial registry when no round ran. -/
def finalConns (conns : List ConnState) (rs : List RoundResult) : List ConnState :=
  match rs.getLast? with
  | some r => r.conns
  | none => conns

/-- The role (client/server) of a connection, used to state that the
classification pass never changes what kind of connection sits at each
registry slot. -/
def roleOf : ConnState → Bool
  | .client _ => true
  | .server => false

/-- Stream `v` sits in some client's `_pStream` cache. -/
def cachesStream (conns : List ConnState) (v : Nat) : Prop :=
  ConnState.client (some v) ∈ conns

instance (conns : List ConnState) (v : Nat) : Decidable (cachesStream conns v) :=
  inferInstanceAs (Decidable (ConnState.client (some v) ∈ conns))

/-- How many client slots cache stream `v` (in C++ a live `IpcStream*` is
owned by exactly one place, so this is `0` or `1`; the model keeps the full
count). -/
def cacheCount : List ConnState → Nat → Nat
  | [], _ => 0
  | ConnState.client c :: rest, v =>
    (if c = some v then 1 else 0) + cacheCount rest v
  | ConnState.server :: rest, v => cacheCount rest v

/-- The environment of one round never hands out stream `v`: neither
`Connect` nor `Accept` returns it.  This is the C++ allocation-freshness of a
live `IpcStream*`: while `v` is owned by the caller or cached, the transport
cannot produce that very object again. -/
def RoundEnv.avoids (e : RoundEnv) (v : Nat) : Prop :=
  (∀ i, e.connectResult i ≠ some v) ∧ (∀ i, e.acceptResult i ≠ some v)

/-- How many of the registry indices `i, i+1, …, i+len-1` would receive
stream `v` from this round's `Connect`.  Every cached copy of `v` the
collection pass creates comes from one of these indices. -/
def connectCountFrom (e : RoundEnv) (v : Nat) : Nat → Nat → Nat
  | _, 0 => 0
  | i, len + 1 =>
    (if e.connectResult i = some v then 1 else 0) + connectCountFrom e v (i + 1) len

/-- An upper bound on the allocations of stream `v` this round's transport
can hand the factory on a registry of `n` connections: one per registry
index whose `Connect` yields `v`, plus one when some index's `Accept` yields
`v` (at most one `Accept` result can be claimed into `pStream` per round,
since the first such claim stops further claims). -/
def mintCount (e : RoundEnv) (n v : Nat) : Nat :=
  connectCountFrom e v 0 n +
    (if ∃ i ∈ List.range n, e.acceptResult i = some v then 1 else 0)

/-- Total allocation bound for stream `v` across a whole call's environment
behaviour.  In C++ each live `IpcStream*` is produced by exactly one
allocation, so for the stream a call returns this total — together with the
copies cached before the call — is at most `1`. -/
def sourceBound (envs : List RoundEnv) (n v : Nat) : Nat :=
  (envs.map (fun e => mintCount e n v)).sum

/-- An environment in which `Poll` reports one event and classifies every
handle as `HANGUP`; connections with an empty cache fail to reconnect. -/
def envHangup : RoundEnv :=
  ⟨fun _ => none, fun _ => true, fun _ => none, 1, fun _ => .HANGUP⟩

/-- An environment in which every client reconnect fails and `Poll` times
out (returns `0`). -/
def envConnectFail : RoundEnv :=
  ⟨fun _ => none, fun _ => true, fun _ => none, 0, fun _ => .NONE⟩

/-- An environment in which `Poll` reports an event and classifies every
handle as `ERR`. -/
def envErr : RoundEnv :=
  ⟨fun _ => none, fun _ => true, fun _ => none, 1, fun _ => .ERR⟩

/-- An environment in which `Poll` reports an event and classifies every
handle as `SIGNALED`; `Accept` yields stream `7`. -/
def envSignaled : RoundEnv :=
  ⟨fun _ => none, fun _ => true, fun _ => some 7, 1, fun _ => .SIGNALED⟩

/-- An environment in which `Poll` reports events, the first polled handle is
classified `SIGNALED` and every later handle `ERR`; `Accept` yields stream
`7`. -/
def envSigThenErr : RoundEnv :=
  ⟨fun _ => none, fun _ => true, fun _ => some 7, 1,
   fun i => if i = 0 then .SIGNALED else .ERR⟩

/-! ## Theorems -/

theorem specParams_wf : specParams.WellFormed := by
  refine ⟨?_, ?_, ?_, ?_, ?_⟩ <;> decide

/-- **C1** (amended).  `GetNextTimeout` maps `Infinite` to `Minimum` and any
input at or above `Maximum` to exactly `Maximum`; but an input strictly below
`Maximum` is multiplied by the falloff factor *without* being capped, so the
result can exceed `Maximum` — it is only bounded by `Maximum` times the
falloff factor (stated cross-multiplied: `result * den ≤ Maximum * num`),
and the sequence stabilises at `Maximum` one step later. -/
theorem getNextTimeout_policy (p : PollParams) (hp : p.WellFormed) :
    GetNextTimeout p p.infiniteMs = p.minMs ∧
    (∀ t : Int, p.maxMs ≤ t → GetNextTimeout p t = p.maxMs) ∧
    (∀ t : Int, 0 ≤ t → t < p.maxMs → GetNextTimeout p t = Int.tdiv (t * p.num) p.den) ∧
    (∀ t : Int, 0 ≤ t → GetNextTimeout p t * p.den ≤ p.maxMs * p.num) := by
  obtain ⟨hinf, hmin, hminmax, hden, hnum⟩ := hp
  have hmax0 : (0 : Int) < p.maxMs := lt_trans hmin hminmax
  have hinf_lt : ∀ t : Int, 0 ≤ t → t ≠ p.infiniteMs := by
    intro t ht heq
    exact absurd (heq ▸ ht) (not_le.mpr hinf)
  refine ⟨?_, ?_, ?_, ?_⟩
  · simp [GetNextTimeout]
  · intro t hle
    have h0 : (0 : Int) ≤ t := le_trans (le_of_lt hmax0) hle
    rw [GetNextTimeout, if_neg (hinf_lt t h0), if_pos hle]
  · intro t h0 hlt
    rw [GetNextTimeout, if_neg (hinf_lt t h0), if_neg (not_le.mpr hlt)]
  · intro t h0
    by_cases hle : p.maxMs ≤ t
    · rw [GetNextTimeout, if_neg (hinf_lt t h0), if_pos hle]
      exact mul_le_mul_of_nonneg_left (le_of_lt hnum) (le_of_lt hmax0)
    · rw [GetNextTimeout, if_neg (hinf_lt t h0), if_neg hle]
      have htd : Int.tdiv (t * p.num) p.den = t * p.num / p.den :=
        Int.tdiv_eq_ediv (mul_nonneg h0 (le_of_lt (lt_trans hden hnum)))
          (le_of_lt hden)
      rw [htd]
      calc t * p.num / p.den * p.den ≤ t * p.num :=
              Int.ediv_mul_le _ (ne_of_gt hden)
        _ ≤ p.maxMs * p.num :=
              mul_le_mul_of_nonneg_right (le_of_lt (not_le.mp hle))
                (le_of_lt (lt_trans hden hnum))

/-- **C1** is false as stated: at the (spec-modelled) constants, input `457`
— a value the backoff sequence actually reaches from `Minimum` — is below
`Maximum = 500`, yet `GetNextTimeout` returns `571 > 500`, whereas the
claimed `min(Maximum, t * factor)` would be `500`; so the outputs on
non-`Infinite` inputs are not bounded by `Maximum`. -/
theorem getNextTimeout_exceeds_max :
    GetNextTimeout specParams 457 = 571 ∧
    min specParams.maxMs (Int.tdiv (457 * specParams.num) specParams.den) = 500 ∧
    specParams.maxMs < GetNextTimeout specParams 457 := by
  refine ⟨?_, ?_, ?_⟩ <;> decide

/-- Witness for `getNextTimeout_policy` at the spec-modelled constants. -/
theorem getNextTimeout_policy_witness :
    GetNextTimeout specParams specParams.infiniteMs = specParams.minMs ∧
    GetNextTimeout specParams 500 = 500 ∧
    GetNextTimeout specParams 457 * specParams.den ≤ specParams.maxMs * specParams.num := by
  have h := getNextTimeout_policy specParams specParams_wf
  exact ⟨h.1, h.2.1 500 (by decide), h.2.2.2 457 (by decide)⟩

/-- A classification pass never moves `pollTimeoutMs` away from the minimum:
the only write to it inside the switch is the hangup case, which writes the
minimum again. -/
theorem processHandles_min_stable (p : PollParams) (e : RoundEnv)
    (hs : List (IpcPollHandle × PollEvents)) (s : ScanState)
    (h : s.pollTimeoutMs = p.minMs) :
    ((processHandles p e hs s).1).pollTimeoutMs = p.minMs := by
  induction hs generalizing s with
  | nil => simpa [processHandles] using h
  | cons x rest ih =>
    obtain ⟨hd, ev⟩ := x
    cases ev with
    | NONE => simp only [processHandles]; exact ih s h
    | UNKNOWN => simp only [processHandles]; exact ih s h
    | HANGUP => simp only [processHandles]; exact ih _ rfl
    | ERR => simpa [processHandles] using h
    | SIGNALED =>
      cases hps : s.pStream with
      | none => simp only [processHandles, hps]; exact ih _ h
      | some v => simp only [processHandles, hps]; exact ih s h

/-- If the classification pass sees at least one `HANGUP` and does not abort
on an `ERR`, the `pollTimeoutMs` variable ends at the minimum. -/
theorem processHandles_hangup_min (p : PollParams) (e : RoundEnv)
    (hs : List (IpcPollHandle × PollEvents)) (s : ScanState)
    (hnoerr : (processHandles p e hs s).2 = false)
    (hhang : ∃ x ∈ hs, x.2 = PollEvents.HANGUP) :
    ((processHandles p e hs s).1).pollTimeoutMs = p.minMs := by
  induction hs generalizing s with
  | nil => simp at hhang
  | cons x rest ih =>
    obtain ⟨hd, ev⟩ := x
    have tail : (∃ y ∈ rest, y.2 = PollEvents.HANGUP) ∨ ev = PollEvents.HANGUP := by
      obtain ⟨y, hy, hev⟩ := hhang
      rcases List.mem_cons.mp hy with h1 | h2
      · right; rw [h1] at hev; exact hev
      · left; exact ⟨y, h2, hev⟩
    cases ev with
    | HANGUP =>
      simp only [processHandles]
      exact processHandles_min_stable p e rest _ rfl
    | NONE =>
      simp only [processHandles] at hnoerr ⊢
      rcases tail with ht | hev
      · exact ih _ hnoerr ht
      · exact absurd hev (by decide)
    | UNKNOWN =>
      simp only [processHandles] at hnoerr ⊢
      rcases tail with ht | hev
      · exact ih _ hnoerr ht
      · exact absurd hev (by decide)
    | SIGNALED =>
      rcases tail with ht | hev
      · cases hps : s.pStream with
        | none =>
          simp only [processHandles, hps] at hnoerr ⊢
          exact ih _ hnoerr ht
        | some v =>
          simp only [processHandles, hps] at hnoerr ⊢
          exact ih _ hnoerr ht
      · exact absurd hev (by decide)
    | ERR => simp [processHandles] at hnoerr

/-- When the round does not return `nullptr`, the classification pass did
not abort on `ERR`. -/
theorem doRound_not_null_no_err (p : PollParams) (conns : List ConnState)
    (t : Int) (e : RoundEnv)
    (h : (doRound p conns t e).outcome ≠ RoundOutcome.retNull) :
    (roundScan p e conns t).2 = false := by
  by_contra hc
  have hb : (roundScan p e conns t).2 = true := by
    cases hx : (roundScan p e conns t).2
    · exact absurd hx hc
    · rfl
  apply h
  show (if (roundScan p e conns t).2 then RoundOutcome.retNull
        else match (roundScan p e conns t).1.pStream with
             | some st => RoundOutcome.retStream st
             | none => RoundOutcome.cont) = RoundOutcome.retNull
  rw [hb]
  simp

/-- **C2** (amended).  A hangup classified in one round does force the
`pollTimeoutMs` variable down to `Minimum` for the next iteration; but the
next iteration (when it does not select the `Infinite` timeout) passes
`GetNextTimeout(pollTimeoutMs)` to `Poll`, so the timeout actually used is
`GetNextTimeout(Minimum)` — the minimum already advanced by one falloff
step, `⌊Minimum·num/den⌋`, not `Minimum` itself. -/
theorem hangup_resets_backoff (p : PollParams) (hp : p.WellFormed)
    (conns : List ConnState) (t : Int) (e₁ e₂ : RoundEnv)
    (hrv : e₁.pollRetval ≠ 0)
    (hhang : ∃ x ∈ (doRound p conns t e₁).scanned, x.2 = PollEvents.HANGUP)
    (hcont : (doRound p conns t e₁).outcome = RoundOutcome.cont)
    (hfc : (doRound p (doRound p conns t e₁).conns (doRound p conns t e₁).nextTimeout
             e₂).fConnectSuccess = false) :
    (doRound p conns t e₁).nextTimeout = p.minMs ∧
    (doRound p (doRound p conns t e₁).conns (doRound p conns t e₁).nextTimeout
       e₂).timeoutUsed = Int.tdiv (p.minMs * p.num) p.den := by
  obtain ⟨hinf, hmin, hminmax, hden, hnum⟩ := hp
  have hnn : (doRound p conns t e₁).outcome ≠ RoundOutcome.retNull := by
    rw [hcont]; intro hx; exact RoundOutcome.noConfusion hx
  have hnoerr := doRound_not_null_no_err p conns t e₁ hnn
  have hscan : roundScan p e₁ conns t =
      processHandles p e₁ (roundHandles e₁ conns)
        ⟨(buildHandles e₁ conns 0).1, roundTimeout p e₁ conns t, none, [], []⟩ := by
    rw [roundScan, if_pos hrv]
  have h1 : (doRound p conns t e₁).nextTimeout = p.minMs := by
    show (roundScan p e₁ conns t).1.pollTimeoutMs = p.minMs
    rw [hscan]
    rw [hscan] at hnoerr
    exact processHandles_hangup_min p e₁ _ _ hnoerr hhang
  refine ⟨h1, ?_⟩
  show roundTimeout p e₂ (doRound p conns t e₁).conns (doRound p conns t e₁).nextTimeout = _
  have hfc' : (buildHandles e₂ (doRound p conns t e₁).conns 0).2.2.1 = false := hfc
  rw [roundTimeout, hfc']
  simp only [Bool.false_eq_true, if_false]
  rw [h1]
  have hne : p.minMs ≠ p.infiniteMs := by
    intro hx
    exact absurd (hx ▸ hmin) (lt_asymm hinf)
  rw [GetNextTimeout, if_neg hne, if_neg (not_le.mpr hminmax)]

/-- **C2** is false as stated: a single client whose cached stream hangs up
(round 1), then fails to reconnect (round 2).  The hangup sets the timeout
variable to `Minimum = 10`, yet the timeout actually passed to `Poll` in
round 2 — which did not select `Infinite`, since `fConnectSuccess` was false
— is `12 = GetNextTimeout(10)`, not the minimum. -/
theorem hangup_timeout_counterexample :
    ((run specParams [envHangup, envConnectFail] [ConnState.client (some 0)]
        specParams.infiniteMs).1.map (fun r => r.scanned.map (fun x => x.2))
        = [[PollEvents.HANGUP], []]) ∧
    ((run specParams [envHangup, envConnectFail] [ConnState.client (some 0)]
        specParams.infiniteMs).1.map (fun r => r.nextTimeout) = [10, 12]) ∧
    ((run specParams [envHangup, envConnectFail] [ConnState.client (some 0)]
        specParams.infiniteMs).1.map (fun r => r.fConnectSuccess) = [true, false]) ∧
    ((run specParams [envHangup, envConnectFail] [ConnState.client (some 0)]
        specParams.infiniteMs).1.map (fun r => r.timeoutUsed) = [-1, 12]) ∧
    (12 : Int) ≠ specParams.minMs := by
  refine ⟨?_, ?_, ?_, ?_, ?_⟩ <;> decide

/-- Witness for `hangup_resets_backoff`: the same two-round scenario, driven
through the theorem itself. -/
theorem hangup_resets_backoff_witness :
    (doRound specParams [ConnState.client (some 0)] specParams.infiniteMs
       envHangup).nextTimeout = specParams.minMs ∧
    (doRound specParams
       (doRound specParams [ConnState.client (some 0)] specParams.infiniteMs
          envHangup).conns
       (doRound specParams [ConnState.client (some 0)] specParams.infiniteMs
          envHangup).nextTimeout envConnectFail).timeoutUsed
      = Int.tdiv (specParams.minMs * specParams.num) specParams.den := by
  exact hangup_resets_backoff specParams specParams_wf
    [ConnState.client (some 0)] specParams.infiniteMs envHangup envConnectFail
    (by decide) (by decide) (by decide) (by decide)

/-- Resetting a connection does not change its client/server role. -/
theorem roleOf_resetConn (c : ConnState) : roleOf (resetConn c) = roleOf c := by
  cases c <;> rfl

/-- Overwriting a registry slot with a connection of the same role keeps the
registry's role profile. -/
theorem roles_set (conns : List ConnState) (i : Nat) (c c' : ConnState)
    (hg : conns.get? i = some c) (hr : roleOf c' = roleOf c) :
    (conns.set i c').map roleOf = conns.map roleOf := by
  induction conns generalizing i with
  | nil => simp at hg
  | cons hd tl ih =>
    cases i with
    | zero =>
      simp only [List.get?] at hg
      injection hg with hg
      subst hg
      simp [List.set, hr]
    | succ n =>
      simp only [List.get?] at hg
      simp [List.set, ih n hg]

/-- `Reset` keeps the registry's role profile. -/
theorem roles_resetAt (conns : List ConnState) (i : Nat) :
    (resetAt conns i).map roleOf = conns.map roleOf := by
  cases hg : conns.get? i with
  | none => simp only [resetAt, hg]
  | some c => simp only [resetAt, hg]; exact roles_set conns i c _ hg (roleOf_resetConn c)

/-- `GetConnectedStream` keeps the registry's role profile. -/
theorem roles_getConnectedStream (e : RoundEnv) (conns : List ConnState) (i : Nat) :
    (getConnectedStream e conns i).2.map roleOf = conns.map roleOf := by
  cases hg : conns.get? i with
  | none => simp only [getConnectedStream, hg]
  | some c =>
    cases c with
    | client cached =>
      simp only [getConnectedStream, hg]
      exact roles_set conns i (ConnState.client cached) (ConnState.client none) hg rfl
    | server => simp only [getConnectedStream, hg]

/-- The classification pass keeps the registry's role profile. -/
theorem roles_processHandles (p : PollParams) (e : RoundEnv)
    (hs : List (IpcPollHandle × PollEvents)) (s : ScanState) :
    ((processHandles p e hs s).1).conns.map roleOf = s.conns.map roleOf := by
  induction hs generalizing s with
  | nil => simp [processHandles]
  | cons x rest ih =>
    obtain ⟨hd, ev⟩ := x
    cases ev with
    | HANGUP =>
      simp only [processHandles]
      rw [ih]
      exact roles_resetAt s.conns hd.owner
    | SIGNALED =>
      cases hps : s.pStream with
      | none =>
        simp only [processHandles, hps]
        rw [ih]
        exact roles_getConnectedStream e s.conns hd.owner
      | some v => simp only [processHandles, hps]; exact ih s
    | ERR => simp [processHandles]
    | NONE => simp only [processHandles]; exact ih s
    | UNKNOWN => simp only [processHandles]; exact ih s

/-- The handle-collection pass keeps the registry's role profile (a client
may gain or keep a cache, never change kind). -/
theorem roles_buildHandles (e : RoundEnv) (conns : List ConnState) (i : Nat) :
    ((buildHandles e conns i).1).map roleOf = conns.map roleOf := by
  induction conns generalizing i with
  | nil => rfl
  | cons c rest ih =>
    cases c with
    | client cached => simp [buildHandles, roleOf, ih]
    | server => simp [buildHandles, roleOf, ih]

/-- One loop iteration keeps the registry's role profile. -/
theorem roles_doRound (p : PollParams) (conns : List ConnState) (t : Int)
    (e : RoundEnv) :
    (doRound p conns t e).conns.map roleOf = conns.map roleOf := by
  show (roundScan p e conns t).1.conns.map roleOf = conns.map roleOf
  simp only [roundScan]
  split
  · rw [roles_processHandles]
    exact roles_buildHandles e conns 0
  · exact roles_buildHandles e conns 0

/-- Dropping a handle whose classification is not `ERR` does not change
whether the list contains an `ERR` handle. -/
theorem exists_err_cons (hd : IpcPollHandle) (ev : PollEvents)
    (rest : List (IpcPollHandle × PollEvents)) (hne : ev ≠ PollEvents.ERR) :
    (∃ x ∈ (hd, ev) :: rest, x.2 = PollEvents.ERR) ↔
      ∃ x ∈ rest, x.2 = PollEvents.ERR := by
  constructor
  · rintro ⟨y, hy, h2⟩
    rcases List.mem_cons.mp hy with h1 | h1
    · rw [h1] at h2
      exact absurd h2 hne
    · exact ⟨y, h1, h2⟩
  · rintro ⟨y, hy, h2⟩
    exact ⟨y, List.mem_cons_of_mem _ hy, h2⟩

/-- The classification pass aborts if and only if some handle in the array
was classified `ERR`. -/
theorem processHandles_err_iff (p : PollParams) (e : RoundEnv)
    (hs : List (IpcPollHandle × PollEvents)) (s : ScanState) :
    (processHandles p e hs s).2 = true ↔ ∃ x ∈ hs, x.2 = PollEvents.ERR := by
  induction hs generalizing s with
  | nil => simp [processHandles]
  | cons x rest ih =>
    obtain ⟨hd, ev⟩ := x
    cases ev with
    | ERR =>
      simp only [processHandles]
      constructor
      · intro _
        exact ⟨(hd, PollEvents.ERR), List.mem_cons_self _ _, rfl⟩
      · intro _
        trivial
    | HANGUP =>
      simp only [processHandles]
      rw [ih]
      exact (exists_err_cons hd _ rest (by decide)).symm
    | SIGNALED =>
      cases hps : s.pStream with
      | none =>
        simp only [processHandles, hps]
        rw [ih]
        exact (exists_err_cons hd _ rest (by decide)).symm
      | some v =>
        simp only [processHandles, hps]
        rw [ih]
        exact (exists_err_cons hd _ rest (by decide)).symm
    | NONE =>
      simp only [processHandles]
      rw [ih]
      exact (exists_err_cons hd _ rest (by decide)).symm
    | UNKNOWN =>
      simp only [processHandles]
      rw [ih]
      exact (exists_err_cons hd _ rest (by decide)).symm

/-- Unfolding of `run` on a non-empty environment list. -/
theorem run_cons (p : PollParams) (e : RoundEnv) (rest : List RoundEnv)
    (conns : List ConnState) (t : Int) :
    run p (e :: rest) conns t =
      match (doRound p conns t e).outcome with
      | RoundOutcome.cont =>
        ((doRound p conns t e) ::
           (run p rest (doRound p conns t e).conns
              (doRound p conns t e).nextTimeout).1,
         (run p rest (doRound p conns t e).conns
            (doRound p conns t e).nextTimeout).2)
      | RoundOutcome.retNull => ([doRound p conns t e], some none)
      | RoundOutcome.retStream s => ([doRound p conns t e], some (some s)) := rfl

/-- A call that executed no round has not returned. -/
theorem run_empty_rounds (p : PollParams) (envs : List RoundEnv)
    (conns : List ConnState) (t : Int) (h : (run p envs conns t).1 = []) :
    (run p envs conns t).2 = none := by
  cases envs with
  | nil => rfl
  | cons e rest =>
    exfalso
    rw [run_cons] at h
    cases ho : (doRound p conns t e).outcome <;> rw [ho] at h <;> simp at h

/-- The call returns `nullptr` exactly when its last executed round did. -/
theorem run_null_iff (p : PollParams) (envs : List RoundEnv)
    (conns : List ConnState) (t : Int) :
    (run p envs conns t).2 = some none ↔
      ∃ r, (run p envs conns t).1.getLast? = some r ∧
        r.outcome = RoundOutcome.retNull := by
  induction envs generalizing conns t with
  | nil => simp [run]
  | cons e rest ih =>
    rw [run_cons]
    cases ho : (doRound p conns t e).outcome with
    | cont =>
      show (run p rest (doRound p conns t e).conns
              (doRound p conns t e).nextTimeout).2 = some none ↔
          ∃ r, ((doRound p conns t e) ::
              (run p rest (doRound p conns t e).conns
                (doRound p conns t e).nextTimeout).1).getLast? = some r ∧
            r.outcome = RoundOutcome.retNull
      cases hq : (run p rest (doRound p conns t e).conns
          (doRound p conns t e).nextTimeout).1 with
      | nil =>
        rw [run_empty_rounds p rest _ _ hq]
        constructor
        · intro hx
          exact Option.noConfusion hx
        · rintro ⟨r, hr, hout⟩
          have hr' : doRound p conns t e = r := by
            simpa using hr
          rw [← hr', ho] at hout
          exact RoundOutcome.noConfusion hout
      | cons y ys =>
        rw [List.getLast?_cons_cons]
        have hih := ih (doRound p conns t e).conns (doRound p conns t e).nextTimeout
        rw [hq] at hih
        exact hih
    | retNull =>
      show some (none : Option Nat) = some none ↔
          ∃ r, [doRound p conns t e].getLast? = some r ∧
            r.outcome = RoundOutcome.retNull
      constructor
      · intro _
        exact ⟨doRound p conns t e, by simp, ho⟩
      · intro _
        rfl
    | retStream s =>
      show some (some s) = some (none : Option Nat) ↔
          ∃ r, [doRound p conns t e].getLast? = some r ∧
            r.outcome = RoundOutcome.retNull
      constructor
      · intro hx
        injection hx with hx
        exact Option.noConfusion hx
      · rintro ⟨r, hr, hout⟩
        have hr' : doRound p conns t e = r := by
          simpa using hr
        rw [← hr', ho] at hout
        exact RoundOutcome.noConfusion hout

/-- A round returns `nullptr` exactly when its classification pass aborted. -/
theorem doRound_null_iff_err (p : PollParams) (conns : List ConnState)
    (t : Int) (e : RoundEnv) :
    (doRound p conns t e).outcome = RoundOutcome.retNull ↔
      (roundScan p e conns t).2 = true := by
  show (if (roundScan p e conns t).2 then RoundOutcome.retNull
        else match (roundScan p e conns t).1.pStream with
             | some st => RoundOutcome.retStream st
             | none => RoundOutcome.cont) = RoundOutcome.retNull ↔ _
  cases hx : (roundScan p e conns t).2 with
  | true => simp
  | false =>
    simp only [Bool.false_eq_true, if_false]
    cases hps : (roundScan p e conns t).1.pStream <;> simp

/-- The classification pass of a round aborts exactly when `Poll` reported
events and classified some handle `ERR`. -/
theorem roundScan_err_iff (p : PollParams) (conns : List ConnState) (t : Int)
    (e : RoundEnv) :
    (roundScan p e conns t).2 = true ↔
      e.pollRetval ≠ 0 ∧ ∃ x ∈ roundHandles e conns, x.2 = PollEvents.ERR := by
  by_cases hrv : e.pollRetval ≠ 0
  · simp only [roundScan, if_pos hrv]
    constructor
    · intro h
      exact ⟨hrv, (processHandles_err_iff p e _ _).mp h⟩
    · rintro ⟨_, hx⟩
      exact (processHandles_err_iff p e _ _).mpr hx
  · simp only [roundScan, if_neg hrv]
    constructor
    · intro h
      exact Bool.noConfusion h
    · rintro ⟨hx, _⟩
      exact absurd hx hrv

/-- **C3**.  `GetNextAvailableStream` returns `nullptr` exactly when the
poll primitive classified some handle's event as `ERR`: a round's outcome is
the null return if and only if `Poll` reported events and some handle in
that round's array was classified `ERR` (so connection-local failures —
reconnect failure, hangup — never surface as null, and the null return
happens even when other handles of the same round were simultaneously
signaled); the registry stays well-formed (role profile unchanged) on every
round including the error one; and at the call level the null result occurs
exactly when the last executed round took that error exit. -/
theorem poll_error_returns_null (p : PollParams) (conns : List ConnState)
    (t : Int) (e : RoundEnv) (envs : List RoundEnv) :
    ((doRound p conns t e).outcome = RoundOutcome.retNull ↔
      e.pollRetval ≠ 0 ∧ ∃ x ∈ (doRound p conns t e).scanned, x.2 = PollEvents.ERR) ∧
    (doRound p conns t e).conns.map roleOf = conns.map roleOf ∧
    ((run p envs conns t).2 = some none ↔
      ∃ r, (run p envs conns t).1.getLast? = some r ∧
        r.outcome = RoundOutcome.retNull) := by
  exact ⟨(doRound_null_iff_err p conns t e).trans (roundScan_err_iff p conns t e),
    roles_doRound p conns t e, run_null_iff p envs conns t⟩

/-- Witness for `poll_error_returns_null`: two servers, the first handle
signaled and the second in error — the round still returns `nullptr`. -/
theorem poll_error_returns_null_witness :
    (doRound specParams [ConnState.server, ConnState.server] (-1)
       envSigThenErr).outcome = RoundOutcome.retNull :=
  (poll_error_returns_null specParams [ConnState.server, ConnState.server]
    (-1) envSigThenErr []).1.mpr (by decide)

/-- Every recorded `GetConnectedStream` invocation of a classification pass
either predates the pass or is owed to a handle classified `SIGNALED`. -/
theorem processHandles_claims_origin (p : PollParams) (e : RoundEnv)
    (hs : List (IpcPollHandle × PollEvents)) (s : ScanState)
    (c : Nat × Option Nat) (hc : c ∈ ((processHandles p e hs s).1).claims) :
    c ∈ s.claims ∨ ∃ x ∈ hs, x.2 = PollEvents.SIGNALED ∧ x.1.owner = c.1 := by
  induction hs generalizing s with
  | nil =>
    left
    simpa [processHandles] using hc
  | cons x rest ih =>
    obtain ⟨hd, ev⟩ := x
    cases ev with
    | HANGUP =>
      simp only [processHandles] at hc
      rcases ih _ hc with h | ⟨y, hy, h2⟩
      · left; exact h
      · right; exact ⟨y, List.mem_cons_of_mem _ hy, h2⟩
    | NONE =>
      simp only [processHandles] at hc
      rcases ih _ hc with h | ⟨y, hy, h2⟩
      · left; exact h
      · right; exact ⟨y, List.mem_cons_of_mem _ hy, h2⟩
    | UNKNOWN =>
      simp only [processHandles] at hc
      rcases ih _ hc with h | ⟨y, hy, h2⟩
      · left; exact h
      · right; exact ⟨y, List.mem_cons_of_mem _ hy, h2⟩
    | ERR =>
      left
      simpa [processHandles] using hc
    | SIGNALED =>
      cases hps : s.pStream with
      | some w =>
        simp only [processHandles, hps] at hc
        rcases ih _ hc with h | ⟨y, hy, h2⟩
        · left; exact h
        · right; exact ⟨y, List.mem_cons_of_mem _ hy, h2⟩
      | none =>
        simp only [processHandles, hps] at hc
        rcases ih _ hc with h | ⟨y, hy, h2⟩
        · rcases List.mem_append.mp h with h1 | h1
          · left; exact h1
          · right
            have hceq : c = (hd.owner, (getConnectedStream e s.conns hd.owner).1) := by
              simpa using h1
            exact ⟨(hd, PollEvents.SIGNALED), List.mem_cons_self _ _, rfl,
              by rw [hceq]⟩
        · right; exact ⟨y, List.mem_cons_of_mem _ hy, h2⟩

/-- Invariant of the classification pass: all recorded claims except
possibly the final one produced a null stream, and `pStream` is exactly the
result of the final claim. -/
theorem processHandles_claims_shape (p : PollParams) (e : RoundEnv)
    (hs : List (IpcPollHandle × PollEvents)) (s : ScanState)
    (hinv : (s.pStream = none ∧ ∀ c ∈ s.claims, c.2 = (none : Option Nat)) ∨
      (∃ i v pre, s.pStream = some v ∧ s.claims = pre ++ [(i, some v)] ∧
        ∀ c ∈ pre, c.2 = (none : Option Nat))) :
    ((processHandles p e hs s).1.pStream = none ∧
      ∀ c ∈ (processHandles p e hs s).1.claims, c.2 = (none : Option Nat)) ∨
    (∃ i v pre, (processHandles p e hs s).1.pStream = some v ∧
      (processHandles p e hs s).1.claims = pre ++ [(i, some v)] ∧
      ∀ c ∈ pre, c.2 = (none : Option Nat)) := by
  induction hs generalizing s with
  | nil => simpa [processHandles] using hinv
  | cons x rest ih =>
    obtain ⟨hd, ev⟩ := x
    cases ev with
    | HANGUP => simp only [processHandles]; exact ih _ hinv
    | NONE => simp only [processHandles]; exact ih _ hinv
    | UNKNOWN => simp only [processHandles]; exact ih _ hinv
    | ERR => simpa [processHandles] using hinv
    | SIGNALED =>
      cases hps : s.pStream with
      | some w => simp only [processHandles, hps]; exact ih _ hinv
      | none =>
        simp only [processHandles, hps]
        apply ih
        have hall : ∀ c ∈ s.claims, c.2 = (none : Option Nat) := by
          rcases hinv with ⟨_, h⟩ | ⟨i, v, pre, hps2, _, _⟩
          · exact h
          · rw [hps] at hps2
            exact Option.noConfusion hps2
        cases hg : (getConnectedStream e s.conns hd.owner).1 with
        | none =>
          left
          refine ⟨rfl, ?_⟩
          intro c hcm
          rcases List.mem_append.mp hcm with h1 | h1
          · exact hall c h1
          · have : c = (hd.owner, (none : Option Nat)) := by simpa using h1
            rw [this]
        | some w =>
          right
          exact ⟨hd.owner, w, s.claims, rfl, rfl, hall⟩

/-- A round exits the loop with stream `v` exactly when its classification
pass did not abort and left `pStream = v`. -/
theorem doRound_stream_iff (p : PollParams) (conns : List ConnState) (t : Int)
    (e : RoundEnv) (v : Nat) :
    (doRound p conns t e).outcome = RoundOutcome.retStream v ↔
      (roundScan p e conns t).2 = false ∧
        (roundScan p e conns t).1.pStream = some v := by
  show (if (roundScan p e conns t).2 then RoundOutcome.retNull
        else match (roundScan p e conns t).1.pStream with
             | some st => RoundOutcome.retStream st
             | none => RoundOutcome.cont) = RoundOutcome.retStream v ↔ _
  cases hx : (roundScan p e conns t).2 with
  | true => simp
  | false =>
    simp only [Bool.false_eq_true, if_false]
    cases hps : (roundScan p e conns t).1.pStream with
    | none => simp
    | some w => simp [eq_comm]

/-- If `Poll` reported events, a round's claims all came from `SIGNALED`
handles of that round; if it reported none, there are no claims. -/
theorem doRound_claims_origin (p : PollParams) (conns : List ConnState)
    (t : Int) (e : RoundEnv) (c : Nat × Option Nat)
    (hc : c ∈ (doRound p conns t e).claims) :
    ∃ x ∈ (doRound p conns t e).scanned, x.2 = PollEvents.SIGNALED ∧
      x.1.owner = c.1 := by
  have hc' : c ∈ (roundScan p e conns t).1.claims := hc
  by_cases hrv : e.pollRetval ≠ 0
  · rw [roundScan, if_pos hrv] at hc'
    rcases processHandles_claims_origin p e _ _ c hc' with h | h
    · exact absurd h (List.not_mem_nil c)
    · exact h
  · rw [roundScan, if_neg hrv] at hc'
    exact absurd hc' (List.not_mem_nil c)

/-- If a round exits the loop with stream `v`, its last claim produced `v`
and every earlier claim of that round produced null. -/
theorem doRound_stream_claims (p : PollParams) (conns : List ConnState)
    (t : Int) (e : RoundEnv) (v : Nat)
    (h : (doRound p conns t e).outcome = RoundOutcome.retStream v) :
    ∃ i pre, (doRound p conns t e).claims = pre ++ [(i, some v)] ∧
      ∀ c ∈ pre, c.2 = (none : Option Nat) := by
  obtain ⟨hfe, hps⟩ := (doRound_stream_iff p conns t e v).mp h
  by_cases hrv : e.pollRetval ≠ 0
  · rw [roundScan, if_pos hrv] at hps
    have hshape := processHandles_claims_shape p e (roundHandles e conns)
      ⟨(buildHandles e conns 0).1, roundTimeout p e conns t, none, [], []⟩
      (Or.inl ⟨rfl, by intro c hcm; exact absurd hcm (List.not_mem_nil c)⟩)
    rcases hshape with ⟨hnone, _⟩ | ⟨i, w, pre, hw, hclaims, hall⟩
    · rw [hps] at hnone
      exact Option.noConfusion hnone
    · rw [hps] at hw
      injection hw with hw
      have hclaims' : (doRound p conns t e).claims = pre ++ [(i, some v)] := by
        show (roundScan p e conns t).1.claims = _
        rw [roundScan, if_pos hrv, hclaims, hw]
      exact ⟨i, pre, hclaims', hall⟩
  · rw [roundScan, if_neg hrv] at hps
    exact Option.noConfusion hps

/-- The call hands back stream `v` exactly when its last executed round
exited the loop with `v`. -/
theorem run_stream_iff (p : PollParams) (envs : List RoundEnv)
    (conns : List ConnState) (t : Int) (v : Nat) :
    (run p envs conns t).2 = some (some v) ↔
      ∃ r, (run p envs conns t).1.getLast? = some r ∧
        r.outcome = RoundOutcome.retStream v := by
  induction envs generalizing conns t with
  | nil => simp [run]
  | cons e rest ih =>
    rw [run_cons]
    cases ho : (doRound p conns t e).outcome with
    | cont =>
      show (run p rest (doRound p conns t e).conns
              (doRound p conns t e).nextTimeout).2 = some (some v) ↔
          ∃ r, ((doRound p conns t e) ::
              (run p rest (doRound p conns t e).conns
                (doRound p conns t e).nextTimeout).1).getLast? = some r ∧
            r.outcome = RoundOutcome.retStream v
      cases hq : (run p rest (doRound p conns t e).conns
          (doRound p conns t e).nextTimeout).1 with
      | nil =>
        rw [run_empty_rounds p rest _ _ hq]
        constructor
        · intro hx
          exact Option.noConfusion hx
        · rintro ⟨r, hr, hout⟩
          have hr' : doRound p conns t e = r := by
            simpa using hr
          rw [← hr', ho] at hout
          exact RoundOutcome.noConfusion hout
      | cons y ys =>
        rw [List.getLast?_cons_cons]
        have hih := ih (doRound p conns t e).conns (doRound p conns t e).nextTimeout
        rw [hq] at hih
        exact hih
    | retNull =>
      show some (none : Option Nat) = some (some v) ↔
          ∃ r, [doRound p conns t e].getLast? = some r ∧
            r.outcome = RoundOutcome.retStream v
      constructor
      · intro hx
        injection hx with hx
        exact Option.noConfusion hx
      · rintro ⟨r, hr, hout⟩
        have hr' : doRound p conns t e = r := by
          simpa using hr
        rw [← hr', ho] at hout
        exact RoundOutcome.noConfusion hout
    | retStream s =>
      show some (some s) = some (some v) ↔
          ∃ r, [doRound p conns t e].getLast? = some r ∧
            r.outcome = RoundOutcome.retStream v
      constructor
      · intro hx
        injection hx with hx
        injection hx with hx
        exact ⟨doRound p conns t e, by simp, by rw [ho, hx]⟩
      · rintro ⟨r, hr, hout⟩
        have hr' : doRound p conns t e = r := by
          simpa using hr
        rw [← hr', ho] at hout
        injection hout with hout
        rw [hout]

/-- Removing the head can only lower the cache multiplicity of `v`. -/
theorem cacheCount_cons_le (c : ConnState) (tl : List ConnState) (v : Nat) :
    cacheCount tl v ≤ cacheCount (c :: tl) v := by
  cases c with
  | client d => simp [cacheCount]
  | server => simp [cacheCount]

/-- A head that does not cache `v` contributes nothing to the count. -/
theorem cacheCount_cons_of_ne (c : ConnState) (tl : List ConnState) (v : Nat)
    (hc : c ≠ ConnState.client (some v)) :
    cacheCount (c :: tl) v = cacheCount tl v := by
  cases c with
  | client d =>
    have hd : ¬ d = some v := by
      intro h
      exact hc (by rw [h])
    simp [cacheCount, hd]
  | server => simp [cacheCount]

/-- Overwriting a slot with a connection that does not cache `v` cannot
raise the multiplicity of `v`. -/
theorem cacheCount_set_le (conns : List ConnState) (i : Nat) (c' : ConnState)
    (v : Nat) (hc' : c' ≠ ConnState.client (some v)) :
    cacheCount (conns.set i c') v ≤ cacheCount conns v := by
  induction conns generalizing i with
  | nil => simp [List.set]
  | cons hd tl ih =>
    cases i with
    | zero =>
      show cacheCount (c' :: tl) v ≤ cacheCount (hd :: tl) v
      rw [cacheCount_cons_of_ne c' tl v hc']
      exact cacheCount_cons_le hd tl v
    | succ n =>
      show cacheCount (hd :: tl.set n c') v ≤ cacheCount (hd :: tl) v
      cases hd with
      | client d => simp [cacheCount]; exact ih n
      | server => simp [cacheCount]; exact ih n

/-- Overwriting a slot that caches `v` with a connection that does not
strictly lowers the multiplicity of `v`. -/
theorem cacheCount_set_lt (conns : List ConnState) (i : Nat) (c' : ConnState)
    (v : Nat) (hget : conns.get? i = some (ConnState.client (some v)))
    (hc' : c' ≠ ConnState.client (some v)) :
    cacheCount (conns.set i c') v < cacheCount conns v := by
  induction conns generalizing i with
  | nil => simp at hget
  | cons hd tl ih =>
    cases i with
    | zero =>
      simp only [List.get?] at hget
      injection hget with hget
      subst hget
      show cacheCount (c' :: tl) v < cacheCount (ConnState.client (some v) :: tl) v
      rw [cacheCount_cons_of_ne c' tl v hc']
      simp [cacheCount]
    | succ n =>
      simp only [List.get?] at hget
      show cacheCount (hd :: tl.set n c') v < cacheCount (hd :: tl) v
      cases hd with
      | client d => simp [cacheCount]; exact ih n hget
      | server => simp [cacheCount]; exact ih n hget

/-- `Reset` cannot raise the multiplicity of `v`. -/
theorem cacheCount_resetAt_le (conns : List ConnState) (i : Nat) (v : Nat) :
    cacheCount (resetAt conns i) v ≤ cacheCount conns v := by
  cases hg : conns.get? i with
  | none =>
    simp only [resetAt, hg]
    exact le_refl _
  | some c =>
    simp only [resetAt, hg]
    apply cacheCount_set_le
    cases c <;> simp [resetConn]

/-- When no reconnect of the collection pass can produce stream `v`, the
pass preserves the multiplicity of `v` exactly. -/
theorem cacheCount_buildHandles (e : RoundEnv) (v : Nat)
    (hav : ∀ i, e.connectResult i ≠ some v) (conns : List ConnState) :
    ∀ i : Nat, cacheCount ((buildHandles e conns i).1) v = cacheCount conns v := by
  induction conns with
  | nil => intro i; rfl
  | cons c rest ih =>
    intro i
    cases c with
    | server =>
      show cacheCount (ConnState.server :: (buildHandles e rest (i + 1)).1) v = _
      simp [cacheCount, ih (i + 1)]
    | client cached =>
      show cacheCount (ConnState.client
          (clientGetIpcPollHandle cached (e.connectResult i) (e.advertiseOk i)).cache ::
          (buildHandles e rest (i + 1)).1) v = _
      have hcache :
          ((clientGetIpcPollHandle cached (e.connectResult i) (e.advertiseOk i)).cache
            = some v) ↔ cached = some v := by
        cases cached with
        | some s => simp [clientGetIpcPollHandle]
        | none =>
          cases hc : e.connectResult i with
          | none => simp [clientGetIpcPollHandle]
          | some s =>
            cases hadv : e.advertiseOk i with
            | true =>
              constructor
              · intro h
                have h' : some s = some v := by
                  simpa [clientGetIpcPollHandle] using h
                exact absurd (hc.trans h') (hav i)
              · intro h
                exact Option.noConfusion h
            | false =>
              simp [clientGetIpcPollHandle]
      simp only [cacheCount, ih (i + 1)]
      by_cases h : cached = some v
      · rw [if_pos (hcache.mpr h), if_pos h]
      · rw [if_neg (fun hx => h (hcache.mp hx)), if_neg h]

/-- `GetConnectedStream` cannot raise the multiplicity of `v` (when `Accept`
cannot produce `v`), and strictly lowers it when it hands `v` out. -/
theorem cacheCount_getConnectedStream (e : RoundEnv) (conns : List ConnState)
    (i : Nat) (v : Nat) (hacc : ∀ j, e.acceptResult j ≠ some v) :
    cacheCount (getConnectedStream e conns i).2 v ≤ cacheCount conns v ∧
    ((getConnectedStream e conns i).1 = some v →
      cacheCount (getConnectedStream e conns i).2 v < cacheCount conns v) := by
  cases hg : conns.get? i with
  | none =>
    simp only [getConnectedStream, hg]
    exact ⟨le_refl _, fun h => Option.noConfusion h⟩
  | some c =>
    cases c with
    | server =>
      simp only [getConnectedStream, hg]
      exact ⟨le_refl _, fun h => absurd h (hacc i)⟩
    | client cached =>
      simp only [getConnectedStream, hg]
      constructor
      · exact cacheCount_set_le conns i _ v (by simp)
      · intro h
        exact cacheCount_set_lt conns i _ v (h ▸ hg) (by simp)

/-- Weight invariant of the classification pass: counting a claimed `v` in
`pStream` as one cached copy, the total number of copies of `v` never grows
during the pass (when `Accept` cannot mint `v`). -/
theorem processHandles_weight (p : PollParams) (e : RoundEnv) (v : Nat)
    (hacc : ∀ j, e.acceptResult j ≠ some v)
    (hs : List (IpcPollHandle × PollEvents)) (s : ScanState) :
    cacheCount ((processHandles p e hs s).1).conns v +
      (if ((processHandles p e hs s).1).pStream = some v then 1 else 0) ≤
    cacheCount s.conns v + (if s.pStream = some v then 1 else 0) := by
  induction hs generalizing s with
  | nil => simp [processHandles]
  | cons x rest ih =>
    obtain ⟨hd, ev⟩ := x
    cases ev with
    | HANGUP =>
      simp only [processHandles]
      refine le_trans (ih _) ?_
      exact Nat.add_le_add_right (cacheCount_resetAt_le s.conns hd.owner v) _
    | ERR => simp [processHandles]
    | NONE => simp only [processHandles]; exact ih s
    | UNKNOWN => simp only [processHandles]; exact ih s
    | SIGNALED =>
      cases hps : s.pStream with
      | some w =>
        simp only [processHandles, hps]
        have hih := ih s
        rw [hps] at hih
        exact hih
      | none =>
        simp only [processHandles, hps]
        refine le_trans (ih _) ?_
        have hg := cacheCount_getConnectedStream e s.conns hd.owner v hacc
        by_cases h1 : (getConnectedStream e s.conns hd.owner).1 = some v
        · rw [if_pos h1]
          have hlt := hg.2 h1
          simp only [if_neg (fun hx : (none : Option Nat) = some v =>
            Option.noConfusion hx)]
          omega
        · rw [if_neg h1]
          have hle := hg.1
          simp only [if_neg (fun hx : (none : Option Nat) = some v =>
            Option.noConfusion hx)]
          omega

/-- One round cannot raise the multiplicity of `v`, and strictly lowers it
when it exits the loop handing `v` to the caller. -/
theorem cacheCount_doRound (p : PollParams) (conns : List ConnState) (t : Int)
    (e : RoundEnv) (v : Nat) (hav : e.avoids v) :
    cacheCount (doRound p conns t e).conns v ≤ cacheCount conns v ∧
    ((doRound p conns t e).outcome = RoundOutcome.retStream v →
      cacheCount (doRound p conns t e).conns v < cacheCount conns v) := by
  obtain ⟨hconn, hacc⟩ := hav
  have hbuild := cacheCount_buildHandles e v hconn conns 0
  by_cases hrv : e.pollRetval ≠ 0
  · have hscan : roundScan p e conns t =
        processHandles p e (roundHandles e conns)
          ⟨(buildHandles e conns 0).1, roundTimeout p e conns t, none, [], []⟩ := by
      rw [roundScan, if_pos hrv]
    have hw := processHandles_weight p e v hacc (roundHandles e conns)
      ⟨(buildHandles e conns 0).1, roundTimeout p e conns t, none, [], []⟩
    rw [show (⟨(buildHandles e conns 0).1, roundTimeout p e conns t, none, [], []⟩ :
        ScanState).pStream = (none : Option Nat) from rfl] at hw
    rw [if_neg (fun hx : (none : Option Nat) = some v => Option.noConfusion hx)] at hw
    rw [show (⟨(buildHandles e conns 0).1, roundTimeout p e conns t, none, [], []⟩ :
        ScanState).conns = (buildHandles e conns 0).1 from rfl] at hw
    rw [hbuild] at hw
    constructor
    · show cacheCount (roundScan p e conns t).1.conns v ≤ cacheCount conns v
      rw [hscan]
      omega
    · intro hout
      obtain ⟨_, hps⟩ := (doRound_stream_iff p conns t e v).mp hout
      rw [hscan] at hps
      rw [if_pos hps] at hw
      show cacheCount (roundScan p e conns t).1.conns v < cacheCount conns v
      rw [hscan]
      omega
  · have hscan : roundScan p e conns t =
        (⟨(buildHandles e conns 0).1, roundTimeout p e conns t, none, [], []⟩, false) := by
      rw [roundScan, if_neg hrv]
    constructor
    · show cacheCount (roundScan p e conns t).1.conns v ≤ cacheCount conns v
      rw [hscan]
      exact le_of_eq hbuild
    · intro hout
      obtain ⟨_, hps⟩ := (doRound_stream_iff p conns t e v).mp hout
      rw [hscan] at hps
      exact absurd hps (fun hx => Option.noConfusion hx)

/-- The final registry of a call's tail is the final registry computed from
the first round's registry. -/
theorem getLast?_cons_isSome (y : RoundResult) (ys : List RoundResult) :
    ∃ x, (y :: ys).getLast? = some x := by
  induction ys generalizing y with
  | nil => exact ⟨y, rfl⟩
  | cons z zs ih =>
    rw [List.getLast?_cons_cons]
    exact ih z

theorem finalConns_cons (conns : List ConnState) (r : RoundResult)
    (rs : List RoundResult) :
    finalConns conns (r :: rs) = finalConns r.conns rs := by
  cases rs with
  | nil => rfl
  | cons y ys =>
    obtain ⟨x, hx⟩ := getLast?_cons_isSome y ys
    simp [finalConns, List.getLast?_cons_cons, hx]

/-- Across a whole acquisition call whose environments cannot mint stream
`v`, the multiplicity of `v` in the registry cannot grow, and strictly
shrinks when the call returns `v`. -/
theorem cacheCount_run (p : PollParams) (v : Nat) (envs : List RoundEnv) :
    ∀ (conns : List ConnState) (t : Int), (∀ e ∈ envs, e.avoids v) →
      cacheCount (finalConns conns (run p envs conns t).1) v ≤ cacheCount conns v ∧
      ((run p envs conns t).2 = some (some v) →
        cacheCount (finalConns conns (run p envs conns t).1) v < cacheCount conns v) := by
  induction envs with
  | nil =>
    intro conns t _
    constructor
    · exact le_refl _
    · intro h
      exact Option.noConfusion h
  | cons e rest ih =>
    intro conns t hav
    have have1 : e.avoids v := hav e (List.mem_cons_self _ _)
    have havr : ∀ x ∈ rest, x.avoids v :=
      fun x hx => hav x (List.mem_cons_of_mem _ hx)
    have hd := cacheCount_doRound p conns t e v have1
    cases ho : (doRound p conns t e).outcome with
    | cont =>
      have h1 : (run p (e :: rest) conns t).1 =
          (doRound p conns t e) ::
            (run p rest (doRound p conns t e).conns
              (doRound p conns t e).nextTimeout).1 := by
        rw [run_cons, ho]
      have h2 : (run p (e :: rest) conns t).2 =
          (run p rest (doRound p conns t e).conns
            (doRound p conns t e).nextTimeout).2 := by
        rw [run_cons, ho]
      rw [h1, h2, finalConns_cons]
      have hih := ih (doRound p conns t e).conns (doRound p conns t e).nextTimeout havr
      constructor
      · exact le_trans hih.1 hd.1
      · intro hres
        exact lt_of_lt_of_le (hih.2 hres) hd.1
    | retNull =>
      have h1 : (run p (e :: rest) conns t).1 = [doRound p conns t e] := by
        rw [run_cons, ho]
      have h2 : (run p (e :: rest) conns t).2 = some none := by
        rw [run_cons, ho]
      rw [h1, h2]
      have hf : finalConns conns [doRound p conns t e] = (doRound p conns t e).conns := rfl
      rw [hf]
      constructor
      · exact hd.1
      · intro hres
        injection hres with hres
        exact absurd hres (fun hx => Option.noConfusion hx)
    | retStream s =>
      have h1 : (run p (e :: rest) conns t).1 = [doRound p conns t e] := by
        rw [run_cons, ho]
      have h2 : (run p (e :: rest) conns t).2 = some (some s) := by
        rw [run_cons, ho]
      rw [h1, h2]
      have hf : finalConns conns [doRound p conns t e] = (doRound p conns t e).conns := rfl
      rw [hf]
      constructor
      · exact hd.1
      · intro hres
        injection hres with hres
        injection hres with hres
        exact hd.2 (by rw [ho, hres])

/-- Every round a call executed draws its claims from that round's
`SIGNALED` handles. -/
theorem run_claims_origin (p : PollParams) (envs : List RoundEnv) :
    ∀ (conns : List ConnState) (t : Int) (r : RoundResult),
      r ∈ (run p envs conns t).1 → ∀ c ∈ r.claims,
      ∃ x ∈ r.scanned, x.2 = PollEvents.SIGNALED ∧ x.1.owner = c.1 := by
  induction envs with
  | nil =>
    intro conns t r hr
    simp [run] at hr
  | cons e rest ih =>
    intro conns t r hr
    cases ho : (doRound p conns t e).outcome with
    | cont =>
      have h1 : (run p (e :: rest) conns t).1 =
          (doRound p conns t e) ::
            (run p rest (doRound p conns t e).conns
              (doRound p conns t e).nextTimeout).1 := by
        rw [run_cons, ho]
      rw [h1] at hr
      rcases List.mem_cons.mp hr with h | h
      · subst h
        exact fun c hc => doRound_claims_origin p conns t e c hc
      · exact ih _ _ r h
    | retNull =>
      have h1 : (run p (e :: rest) conns t).1 = [doRound p conns t e] := by
        rw [run_cons, ho]
      rw [h1] at hr
      have h : r = doRound p conns t e := by simpa using hr
      subst h
      exact fun c hc => doRound_claims_origin p conns t e c hc
    | retStream s =>
      have h1 : (run p (e :: rest) conns t).1 = [doRound p conns t e] := by
        rw [run_cons, ho]
      rw [h1] at hr
      have h : r = doRound p conns t e := by simpa using hr
      subst h
      exact fun c hc => doRound_claims_origin p conns t e c hc

/-- When a call returns stream `v`, the last round's last claim produced
`v` and every earlier claim of that round produced null. -/
theorem run_stream_claims (p : PollParams) (envs : List RoundEnv) :
    ∀ (conns : List ConnState) (t : Int) (v : Nat),
      (run p envs conns t).2 = some (some v) →
      ∃ r i pre, (run p envs conns t).1.getLast? = some r ∧
        r.claims = pre ++ [(i, some v)] ∧
        ∀ c ∈ pre, c.2 = (none : Option Nat) := by
  induction envs with
  | nil =>
    intro conns t v h
    exact absurd h (fun hx => Option.noConfusion hx)
  | cons e rest ih =>
    intro conns t v h
    cases ho : (doRound p conns t e).outcome with
    | cont =>
      have h1 : (run p (e :: rest) conns t).1 =
          (doRound p conns t e) ::
            (run p rest (doRound p conns t e).conns
              (doRound p conns t e).nextTimeout).1 := by
        rw [run_cons, ho]
      have h2 : (run p (e :: rest) conns t).2 =
          (run p rest (doRound p conns t e).conns
            (doRound p conns t e).nextTimeout).2 := by
        rw [run_cons, ho]
      rw [h2] at h
      obtain ⟨r, i, pre, hlast, hclaims, hall⟩ := ih _ _ v h
      rw [h1]
      cases hq : (run p rest (doRound p conns t e).conns
          (doRound p conns t e).nextTimeout).1 with
      | nil =>
        rw [hq] at hlast
        exact absurd hlast (by simp)
      | cons y ys =>
        rw [hq] at hlast
        rw [List.getLast?_cons_cons]
        exact ⟨r, i, pre, hlast, hclaims, hall⟩
    | retNull =>
      have h2 : (run p (e :: rest) conns t).2 = some none := by
        rw [run_cons, ho]
      rw [h2] at h
      injection h with h
      exact absurd h (fun hx => Option.noConfusion hx)
    | retStream s =>
      have h1 : (run p (e :: rest) conns t).1 = [doRound p conns t e] := by
        rw [run_cons, ho]
      have h2 : (run p (e :: rest) conns t).2 = some (some s) := by
        rw [run_cons, ho]
      rw [h2] at h
      injection h with h
      injection h with h
      obtain ⟨i, pre, hclaims, hall⟩ :=
        doRound_stream_claims p conns t e v (by rw [ho, h])
      rw [h1]
      exact ⟨doRound p conns t e, i, pre, by simp, hclaims, hall⟩

/-- `GetConnectedStream` never raises the multiplicity of `v` in the caches
(unconditionally: a client hand-off clears a slot, a server accept touches
no cache). -/
theorem cacheCount_getConnectedStream_le (e : RoundEnv) (conns : List ConnState)
    (i v : Nat) :
    cacheCount (getConnectedStream e conns i).2 v ≤ cacheCount conns v := by
  cases hg : conns.get? i with
  | none =>
    simp only [getConnectedStream, hg]
    exact le_refl _
  | some c =>
    cases c with
    | server =>
      simp only [getConnectedStream, hg]
      exact le_refl _
    | client cached =>
      simp only [getConnectedStream, hg]
      exact cacheCount_set_le conns i _ v (by simp)

/-- Once `pStream` holds a stream, the rest of the classification pass
keeps it (the `SIGNALED` case is guarded by `pStream == nullptr`) and can
only shrink the caches (the remaining effects are `Reset`s). -/
theorem processHandles_stream_stable (p : PollParams) (e : RoundEnv) (v w : Nat)
    (hs : List (IpcPollHandle × PollEvents)) :
    ∀ s : ScanState, s.pStream = some w →
      (processHandles p e hs s).1.pStream = some w ∧
      cacheCount (processHandles p e hs s).1.conns v ≤ cacheCount s.conns v := by
  induction hs with
  | nil =>
    intro s h
    exact ⟨by simpa [processHandles] using h, le_refl _⟩
  | cons x rest ih =>
    intro s h
    obtain ⟨hd, ev⟩ := x
    cases ev with
    | HANGUP =>
      simp only [processHandles]
      have hih := ih { s with conns := resetAt s.conns hd.owner,
                              pollTimeoutMs := p.minMs,
                              resets := s.resets ++ [hd.owner] } h
      exact ⟨hih.1, le_trans hih.2 (cacheCount_resetAt_le s.conns hd.owner v)⟩
    | SIGNALED =>
      simp only [processHandles, h]
      exact ih s h
    | ERR =>
      exact ⟨by simpa [processHandles] using h, le_refl _⟩
    | NONE =>
      simp only [processHandles]
      exact ih s h
    | UNKNOWN =>
      simp only [processHandles]
      exact ih s h

/-- The collection pass creates a cached copy of `v` only at an index whose
`Connect` yields `v`: the multiplicity after the pass is bounded by the
multiplicity before plus the `Connect`-allocations of `v` over the consulted
index range. -/
theorem cacheCount_buildHandles_mint (e : RoundEnv) (v : Nat) :
    ∀ (conns : List ConnState) (i : Nat),
      cacheCount ((buildHandles e conns i).1) v ≤
        cacheCount conns v + connectCountFrom e v i conns.length := by
  intro conns
  induction conns with
  | nil =>
    intro i
    exact Nat.zero_le _
  | cons c rest ih =>
    intro i
    cases c with
    | server =>
      show cacheCount (ConnState.server :: (buildHandles e rest (i + 1)).1) v ≤ _
      have hih := ih (i + 1)
      simp only [cacheCount, List.length_cons, connectCountFrom]
      omega
    | client cached =>
      show cacheCount (ConnState.client
          (clientGetIpcPollHandle cached (e.connectResult i) (e.advertiseOk i)).cache ::
          (buildHandles e rest (i + 1)).1) v ≤ _
      have hih := ih (i + 1)
      have hhead :
          (if (clientGetIpcPollHandle cached (e.connectResult i)
                (e.advertiseOk i)).cache = some v then 1 else 0) ≤
          (if cached = some v then 1 else 0) +
            (if e.connectResult i = some v then 1 else 0) := by
        cases cached with
        | some s => simp [clientGetIpcPollHandle]
        | none =>
          cases hc : e.connectResult i with
          | none => simp [clientGetIpcPollHandle]
          | some s =>
            cases hadv : e.advertiseOk i with
            | true => simp [clientGetIpcPollHandle]
            | false => simp [clientGetIpcPollHandle]
      simp only [cacheCount, List.length_cons, connectCountFrom]
      omega

/-- Handles pushed by the collection pass carry owner indices inside the
consulted range. -/
theorem buildHandles_owner_bound (e : RoundEnv) :
    ∀ (conns : List ConnState) (i : Nat) (h : IpcPollHandle),
      h ∈ (buildHandles e conns i).2.1 → h.owner < i + conns.length := by
  intro conns
  induction conns with
  | nil =>
    intro i h hm
    simp [buildHandles] at hm
  | cons c rest ih =>
    intro i h hm
    cases c with
    | server =>
      rcases List.mem_cons.mp hm with h1 | h1
      · subst h1
        simp only [List.length_cons]
        omega
      · have := ih (i + 1) h h1
        simp only [List.length_cons]
        omega
    | client cached =>
      rcases List.mem_append.mp hm with h1 | h1
      · cases hok : (clientGetIpcPollHandle cached (e.connectResult i)
            (e.advertiseOk i)).ok with
        | false =>
          simp [hok] at h1
        | true =>
          simp only [hok, if_pos] at h1
          have hh : h = IpcPollHandle.mk i (clientGetIpcPollHandle cached
              (e.connectResult i) (e.advertiseOk i)).backing := by
            simpa using h1
          subst hh
          simp only [List.length_cons]
          omega
      · have := ih (i + 1) h h1
        simp only [List.length_cons]
        omega

/-- Every polled handle's owner index is a registry index. -/
theorem roundHandles_owner_bound (e : RoundEnv) (conns : List ConnState)
    (x : IpcPollHandle × PollEvents) (hx : x ∈ roundHandles e conns) :
    x.1.owner < conns.length := by
  rw [roundHandles] at hx
  obtain ⟨y, hy, hxy⟩ := List.mem_map.mp hx
  have hy2 : y.2 ∈ (buildHandles e conns 0).2.1 := by
    have hmem : y.2 ∈ ((buildHandles e conns 0).2.1).enum.map Prod.snd :=
      List.mem_map_of_mem Prod.snd hy
    rwa [List.enum_map_snd] at hmem
  have hb := buildHandles_owner_bound e conns 0 y.2 hy2
  rw [← hxy]
  simpa using hb

/-- Conservation through the classification pass: counting a stream held in
`pStream` as one copy, the copies of `v` grow by at most one, and only when
some polled handle's owner would receive `v` from `Accept` (the pass's only
way to mint a stream; client claims merely move a copy from a cache into
`pStream`, resets destroy copies). -/
theorem processHandles_mint_bound (p : PollParams) (e : RoundEnv) (v : Nat)
    (hs : List (IpcPollHandle × PollEvents)) :
    ∀ s : ScanState,
      cacheCount (processHandles p e hs s).1.conns v +
        (if (processHandles p e hs s).1.pStream = some v then 1 else 0) ≤
      cacheCount s.conns v + (if s.pStream = some v then 1 else 0) +
        (if ∃ x ∈ hs, e.acceptResult x.1.owner = some v then 1 else 0) := by
  induction hs with
  | nil =>
    intro s
    exact Nat.le_add_right _ _
  | cons x rest ih =>
    intro s
    obtain ⟨hd, ev⟩ := x
    have hmono : (if ∃ y ∈ rest, e.acceptResult y.1.owner = some v then 1 else 0) ≤
        (if ∃ y ∈ (hd, ev) :: rest, e.acceptResult y.1.owner = some v then 1 else 0) := by
      by_cases hex : ∃ y ∈ rest, e.acceptResult y.1.owner = some v
      · obtain ⟨y, hy, hv⟩ := hex
        rw [if_pos ⟨y, hy, hv⟩, if_pos ⟨y, List.mem_cons_of_mem _ hy, hv⟩]
      · rw [if_neg hex]
        exact Nat.zero_le _
    cases ev with
    | HANGUP =>
      simp only [processHandles]
      refine le_trans (ih _) ?_
      exact Nat.add_le_add (Nat.add_le_add_right
        (cacheCount_resetAt_le s.conns hd.owner v) _) hmono
    | NONE =>
      simp only [processHandles]
      exact le_trans (ih s) (Nat.add_le_add_left hmono _)
    | UNKNOWN =>
      simp only [processHandles]
      exact le_trans (ih s) (Nat.add_le_add_left hmono _)
    | ERR =>
      simp only [processHandles]
      exact Nat.le_add_right _ _
    | SIGNALED =>
      cases hps : s.pStream with
      | some w =>
        simp only [processHandles, hps]
        have hih := ih s
        rw [hps] at hih
        exact le_trans hih (Nat.add_le_add_left hmono _)
      | none =>
        simp only [processHandles, hps]
        rw [if_neg (fun hx : (none : Option Nat) = some v => Option.noConfusion hx)]
        cases hgo : s.conns.get? hd.owner with
        | none =>
          simp only [getConnectedStream, hgo]
          refine le_trans (ih _) ?_
          exact Nat.add_le_add (Nat.add_le_add (le_refl _) (le_refl 0)) hmono
        | some c =>
          cases c with
          | server =>
            simp only [getConnectedStream, hgo]
            cases hacc : e.acceptResult hd.owner with
            | none =>
              refine le_trans (ih _) ?_
              exact Nat.add_le_add (Nat.add_le_add (le_refl _) (le_refl 0)) hmono
            | some w =>
              by_cases hwv : w = v
              · subst hwv
                rw [if_pos (processHandles_stream_stable p e w w rest _ rfl).1]
                rw [if_pos (show ∃ y ∈ (hd, PollEvents.SIGNALED) :: rest,
                    e.acceptResult y.1.owner = some w from
                    ⟨(hd, PollEvents.SIGNALED), List.mem_cons_self _ _, hacc⟩)]
                refine le_trans (Nat.add_le_add_right
                  (processHandles_stream_stable p e w w rest _ rfl).2 1) ?_
                show cacheCount s.conns w + 1 ≤ cacheCount s.conns w + 0 + 1
                omega
              · rw [if_neg (fun hx =>
                  hwv (Option.some.inj
                    (((processHandles_stream_stable p e v w rest _ rfl).1).symm.trans hx)))]
                refine le_trans (Nat.add_le_add_right
                  (processHandles_stream_stable p e v w rest _ rfl).2 0) ?_
                show cacheCount s.conns v + 0 ≤ cacheCount s.conns v + 0 +
                  (if ∃ y ∈ (hd, PollEvents.SIGNALED) :: rest,
                    e.acceptResult y.1.owner = some v then 1 else 0)
                exact Nat.le_add_right _ _
          | client cached =>
            simp only [getConnectedStream, hgo]
            cases cached with
            | none =>
              refine le_trans (ih _) ?_
              refine Nat.add_le_add (Nat.add_le_add ?_ (le_refl 0)) hmono
              exact cacheCount_set_le s.conns hd.owner _ v (by simp)
            | some w =>
              by_cases hwv : w = v
              · subst hwv
                rw [if_pos (processHandles_stream_stable p e w w rest _ rfl).1]
                refine le_trans (Nat.add_le_add_right
                  (processHandles_stream_stable p e w w rest _ rfl).2 1) ?_
                have hlt := cacheCount_set_lt s.conns hd.owner
                  (ConnState.client none) w hgo (by simp)
                show cacheCount (s.conns.set hd.owner (ConnState.client none)) w + 1 ≤
                  cacheCount s.conns w + 0 +
                  (if ∃ y ∈ (hd, PollEvents.SIGNALED) :: rest,
                    e.acceptResult y.1.owner = some w then 1 else 0)
                omega
              · rw [if_neg (fun hx =>
                  hwv (Option.some.inj
                    (((processHandles_stream_stable p e v w rest _ rfl).1).symm.trans hx)))]
                refine le_trans (Nat.add_le_add_right
                  (processHandles_stream_stable p e v w rest _ rfl).2 0) ?_
                have hle := cacheCount_set_le s.conns hd.owner
                  (ConnState.client none) v (by simp)
                show cacheCount (s.conns.set hd.owner (ConnState.client none)) v + 0 ≤
                  cacheCount s.conns v + 0 +
                  (if ∃ y ∈ (hd, PollEvents.SIGNALED) :: rest,
                    e.acceptResult y.1.owner = some v then 1 else 0)
                omega

/-- One loop iteration keeps the registry's size. -/
theorem doRound_length (p : PollParams) (conns : List ConnState) (t : Int)
    (e : RoundEnv) :
    (doRound p conns t e).conns.length = conns.length := by
  have h := congrArg List.length (roles_doRound p conns t e)
  simpa using h

/-- Conservation through one iteration: counting the stream an exiting
round hands the caller as one copy, the copies of `v` grow by at most the
iteration's transport allocations of `v` (over registry indices). -/
theorem doRound_conservation (p : PollParams) (conns : List ConnState)
    (t : Int) (e : RoundEnv) (v : Nat) :
    cacheCount (doRound p conns t e).conns v +
      (if (doRound p conns t e).outcome = RoundOutcome.retStream v then 1 else 0) ≤
    cacheCount conns v + mintCount e conns.length v := by
  have hb := cacheCount_buildHandles_mint e v conns 0
  by_cases hrv : e.pollRetval ≠ 0
  · have hscan : roundScan p e conns t =
        processHandles p e (roundHandles e conns)
          ⟨(buildHandles e conns 0).1, roundTimeout p e conns t, none, [], []⟩ := by
      rw [roundScan, if_pos hrv]
    have hm : cacheCount (processHandles p e (roundHandles e conns)
          ⟨(buildHandles e conns 0).1, roundTimeout p e conns t, none, [], []⟩).1.conns v +
        (if (processHandles p e (roundHandles e conns)
          ⟨(buildHandles e conns 0).1, roundTimeout p e conns t, none, [], []⟩).1.pStream
          = some v then 1 else 0) ≤
        cacheCount (buildHandles e conns 0).1 v + 0 +
        (if ∃ x ∈ roundHandles e conns, e.acceptResult x.1.owner = some v
          then 1 else 0) :=
      processHandles_mint_bound p e v (roundHandles e conns) _
    have hflag : (if ∃ x ∈ roundHandles e conns, e.acceptResult x.1.owner = some v
          then 1 else 0) ≤
        (if ∃ i ∈ List.range conns.length, e.acceptResult i = some v
          then 1 else 0) := by
      by_cases hex : ∃ x ∈ roundHandles e conns, e.acceptResult x.1.owner = some v
      · obtain ⟨x, hx, hv⟩ := hex
        rw [if_pos ⟨x, hx, hv⟩, if_pos ⟨x.1.owner,
          List.mem_range.mpr (roundHandles_owner_bound e conns x hx), hv⟩]
      · rw [if_neg hex]
        exact Nat.zero_le _
    have hout : (if (doRound p conns t e).outcome = RoundOutcome.retStream v
          then 1 else 0) ≤
        (if (processHandles p e (roundHandles e conns)
          ⟨(buildHandles e conns 0).1, roundTimeout p e conns t, none, [], []⟩).1.pStream
          = some v then 1 else 0) := by
      by_cases ho : (doRound p conns t e).outcome = RoundOutcome.retStream v
      · have hps := ((doRound_stream_iff p conns t e v).mp ho).2
        rw [hscan] at hps
        rw [if_pos ho, if_pos hps]
      · rw [if_neg ho]
        exact Nat.zero_le _
    show cacheCount (roundScan p e conns t).1.conns v + _ ≤
      cacheCount conns v + (connectCountFrom e v 0 conns.length +
        (if ∃ i ∈ List.range conns.length, e.acceptResult i = some v then 1 else 0))
    rw [hscan]
    omega
  · have hscan : roundScan p e conns t =
        (⟨(buildHandles e conns 0).1, roundTimeout p e conns t, none, [], []⟩, false) := by
      rw [roundScan, if_neg hrv]
    have hout : (doRound p conns t e).outcome ≠ RoundOutcome.retStream v := by
      intro ho
      have hps := ((doRound_stream_iff p conns t e v).mp ho).2
      rw [hscan] at hps
      exact Option.noConfusion hps
    rw [if_neg hout]
    show cacheCount (roundScan p e conns t).1.conns v + 0 ≤
      cacheCount conns v + (connectCountFrom e v 0 conns.length +
        (if ∃ i ∈ List.range conns.length, e.acceptResult i = some v then 1 else 0))
    rw [hscan]
    show cacheCount (buildHandles e conns 0).1 v + 0 ≤ _
    omega

/-- Conservation across a whole acquisition call: counting the returned
stream as one copy, the copies of `v` grow by at most the call's total
transport allocations of `v`. -/
theorem run_conservation (p : PollParams) (v : Nat) (envs : List RoundEnv) :
    ∀ (conns : List ConnState) (t : Int),
      cacheCount (finalConns conns (run p envs conns t).1) v +
        (if (run p envs conns t).2 = some (some v) then 1 else 0) ≤
      cacheCount conns v + sourceBound envs conns.length v := by
  induction envs with
  | nil =>
    intro conns t
    show cacheCount conns v +
        (if (none : Option (Option Nat)) = some (some v) then 1 else 0) ≤
      cacheCount conns v + sourceBound [] conns.length v
    rw [if_neg (fun hx : (none : Option (Option Nat)) = some (some v) =>
      Option.noConfusion hx)]
    simp [sourceBound]
  | cons e rest ih =>
    intro conns t
    have hlen := doRound_length p conns t e
    have hsb : sourceBound (e :: rest) conns.length v =
        mintCount e conns.length v + sourceBound rest conns.length v := by
      simp [sourceBound]
    have hcons := doRound_conservation p conns t e v
    cases ho : (doRound p conns t e).outcome with
    | cont =>
      have h1 : (run p (e :: rest) conns t).1 =
          (doRound p conns t e) ::
            (run p rest (doRound p conns t e).conns
              (doRound p conns t e).nextTimeout).1 := by
        rw [run_cons, ho]
      have h2 : (run p (e :: rest) conns t).2 =
          (run p rest (doRound p conns t e).conns
            (doRound p conns t e).nextTimeout).2 := by
        rw [run_cons, ho]
      rw [h1, h2, finalConns_cons, hsb]
      have hih := ih (doRound p conns t e).conns (doRound p conns t e).nextTimeout
      rw [hlen] at hih
      rw [ho, if_neg (fun hx => RoundOutcome.noConfusion hx)] at hcons
      omega
    | retNull =>
      have h1 : (run p (e :: rest) conns t).1 = [doRound p conns t e] := by
        rw [run_cons, ho]
      have h2 : (run p (e :: rest) conns t).2 = some none := by
        rw [run_cons, ho]
      rw [h1, h2, hsb]
      have hf : finalConns conns [doRound p conns t e] = (doRound p conns t e).conns := rfl
      rw [hf]
      rw [if_neg (fun hx : (some (none : Option Nat)) = some (some v) =>
        Option.noConfusion (Option.some.inj hx))]
      rw [ho, if_neg (fun hx => RoundOutcome.noConfusion hx)] at hcons
      omega
    | retStream s =>
      have h1 : (run p (e :: rest) conns t).1 = [doRound p conns t e] := by
        rw [run_cons, ho]
      have h2 : (run p (e :: rest) conns t).2 = some (some s) := by
        rw [run_cons, ho]
      rw [h1, h2, hsb]
      have hf : finalConns conns [doRound p conns t e] = (doRound p conns t e).conns := rfl
      rw [hf]
      rw [ho] at hcons
      by_cases hsv : s = v
      · subst hsv
        rw [if_pos rfl]
        rw [if_pos rfl] at hcons
        omega
      · rw [if_neg (fun hx : (some (some s) : Option (Option Nat)) = some (some v) =>
          hsv (Option.some.inj (Option.some.inj hx)))]
        rw [if_neg (fun hx => hsv (RoundOutcome.retStream.inj hx))] at hcons
        omega

/-- **C4**.  Streams are claimed only from `SIGNALED` handles while no
stream has been claimed yet: every claim a call records is owed to a
`SIGNALED` handle of its round; the stream the call returns is the result
of the last claim of the last round, and every other claim of that round
produced null (so at most one stream is handed out per call and remaining
signaled connections stay unclaimed); and no stream appears in two
successive call results.  The non-reuse part assumes only C++ allocation
freshness of the returned stream `v`: across the first call there is at
most one source of `v` in total — copies cached beforehand plus transport
allocations (`sourceBound`, which admits the stream being freshly minted by
`Connect` or `Accept` *during* the call) — and the second call's transport,
while `v` is owned by the caller, does not allocate `v` at all. -/
theorem signaled_claim_discipline (p : PollParams) (conns : List ConnState)
    (envs₁ envs₂ : List RoundEnv) (v : Nat)
    (h₁ : (GetNextAvailableStream p envs₁ conns).2 = some (some v))
    (hsrc : cacheCount conns v + sourceBound envs₁ conns.length v ≤ 1)
    (hsrc₂ : sourceBound envs₂
      (finalConns conns (GetNextAvailableStream p envs₁ conns).1).length v = 0) :
    (∀ r ∈ (GetNextAvailableStream p envs₁ conns).1, ∀ c ∈ r.claims,
      ∃ x ∈ r.scanned, x.2 = PollEvents.SIGNALED ∧ x.1.owner = c.1) ∧
    (∃ r i pre, (GetNextAvailableStream p envs₁ conns).1.getLast? = some r ∧
      r.claims = pre ++ [(i, some v)] ∧
      ∀ c ∈ pre, c.2 = (none : Option Nat)) ∧
    (GetNextAvailableStream p envs₂
      (finalConns conns (GetNextAvailableStream p envs₁ conns).1)).2
      ≠ some (some v) := by
  refine ⟨?_, ?_, ?_⟩
  · intro r hr
    exact run_claims_origin p envs₁ conns p.infiniteMs r hr
  · exact run_stream_claims p envs₁ conns p.infiniteMs v h₁
  · intro hcontra
    have h₁' : (run p envs₁ conns p.infiniteMs).2 = some (some v) := h₁
    have hcontra' : (run p envs₂
        (finalConns conns (run p envs₁ conns p.infiniteMs).1) p.infiniteMs).2
        = some (some v) := hcontra
    have hsrc₂' : sourceBound envs₂
        (finalConns conns (run p envs₁ conns p.infiniteMs).1).length v = 0 := hsrc₂
    have hc1 := run_conservation p v envs₁ conns p.infiniteMs
    rw [h₁', if_pos rfl] at hc1
    have hc2 := run_conservation p v envs₂
      (finalConns conns (run p envs₁ conns p.infiniteMs).1) p.infiniteMs
    rw [hcontra', if_pos rfl, hsrc₂'] at hc2
    omega

/-- Witness for `signaled_claim_discipline` on the server-accept case: a
single server whose `Accept` mints stream `7` during the first call
(`sourceBound` is `1`, nothing cached); the first call returns `7` and the
immediately following call cannot return `7` again. -/
theorem signaled_claim_discipline_witness :
    (GetNextAvailableStream specParams [envConnectFail]
      (finalConns [ConnState.server]
        (GetNextAvailableStream specParams [envSignaled]
          [ConnState.server]).1)).2 ≠ some (some 7) := by
  exact (signaled_claim_discipline specParams [ConnState.server]
    [envSignaled] [envConnectFail] 7 (by decide) (by decide) (by decide)).2.2

/-- **C5**.  After a hangup the client's `Reset` clears the cached stream,
and the next poll-handle request on an empty cache goes through reconnect:
it succeeds only when `Connect` produced a stream and the advertise
handshake succeeded, in which case exactly the freshly connected stream is
cached and backs the handle; on failure the cache stays empty; and the
handle exposed after a hangup can never be backed by the hung-up stream
unless the transport hands that stream out again. -/
theorem client_hangup_reconnect (s : Nat) (cached : Option Nat)
    (conn : Option Nat) (adv : Bool) :
    resetConn (ConnState.client cached) = ConnState.client none ∧
    ((clientGetIpcPollHandle none conn adv).ok = true →
      conn ≠ none ∧ adv = true ∧
      (clientGetIpcPollHandle none conn adv).cache = conn ∧
      (clientGetIpcPollHandle none conn adv).backing = conn) ∧
    ((clientGetIpcPollHandle none conn adv).ok = false →
      (clientGetIpcPollHandle none conn adv).cache = none) ∧
    (conn ≠ some s → (clientGetIpcPollHandle none conn adv).backing ≠ some s) := by
  refine ⟨rfl, ?_, ?_, ?_⟩
  · intro hok
    cases conn with
    | none => exact absurd hok (by simp [clientGetIpcPollHandle])
    | some w =>
      cases adv with
      | false => exact absurd hok (by simp [clientGetIpcPollHandle])
      | true => exact ⟨by simp, rfl, rfl, rfl⟩
  · intro hok
    cases conn with
    | none => rfl
    | some w =>
      cases adv with
      | false => rfl
      | true => exact absurd hok (by simp [clientGetIpcPollHandle])
  · intro hne
    cases conn with
    | none => simp [clientGetIpcPollHandle]
    | some w =>
      cases adv with
      | false => simp [clientGetIpcPollHandle]
      | true => simpa [clientGetIpcPollHandle] using hne

/-- Witness for `client_hangup_reconnect` with the hung-up stream `3` and a
fresh reconnect stream `4`. -/
theorem client_hangup_reconnect_witness :
    resetConn (ConnState.client (some 3)) = ConnState.client none ∧
    (clientGetIpcPollHandle none (some 4) true).backing ≠ some 3 := by
  have h := client_hangup_reconnect 3 (some 3) (some 4) true
  exact ⟨h.1, h.2.2.2 (by decide)⟩

/-- **C6**.  `Shutdown` is idempotent: with the flag already set it changes
nothing and issues no `Close` calls; from a live state it sets the flag,
issues `Close(isShutdown = true, …)` exactly once for each registered
connection (one per index, in registration order), and a second `Shutdown`
is then a pure no-op. -/
theorem shutdown_idempotent (st : FactoryState) :
    (st.isShutdown = true → Shutdown st = (st, [])) ∧
    ((Shutdown st).1.isShutdown = true) ∧
    (st.isShutdown = false →
      ((Shutdown st).2.map Prod.fst = List.range st.conns.length ∧
       (∀ x ∈ (Shutdown st).2, x.2 = true) ∧
       Shutdown (Shutdown st).1 = ((Shutdown st).1, []))) := by
  refine ⟨?_, ?_, ?_⟩
  · intro h
    simp [Shutdown, h]
  · by_cases h : st.isShutdown = true
    · simp [Shutdown, h]
    · simp [Shutdown, h]
  · intro h
    refine ⟨?_, ?_, ?_⟩
    · have hcomp : (Prod.fst ∘ fun i : Nat => (i, true)) = id := by
        funext i
        rfl
      simp [Shutdown, h, List.map_map, hcomp]
    · intro x hx
      have hx' : x ∈ (List.range st.conns.length).map (fun i => (i, true)) := by
        simpa [Shutdown, h] using hx
      obtain ⟨i, _, hxi⟩ := List.mem_map.mp hx'
      rw [← hxi]
    · simp [Shutdown, h]

/-- Witness for `shutdown_idempotent` on a registry with one server and one
client. -/
theorem shutdown_idempotent_witness :
    (Shutdown (⟨[ConnState.server, ConnState.client none], false⟩ :
        FactoryState)).2.map Prod.fst = List.range 2 ∧
    Shutdown (Shutdown (⟨[ConnState.server, ConnState.client none], false⟩ :
        FactoryState)).1 =
      ((Shutdown (⟨[ConnState.server, ConnState.client none], false⟩ :
        FactoryState)).1, []) := by
  have h := (shutdown_idempotent
    ⟨[ConnState.server, ConnState.client none], false⟩).2.2 rfl
  exact ⟨h.1, h.2.2⟩

/-- **C7**.  A client poll-handle request with an empty cache reconnects:
`Connect` failure reports "Failed to connect to client connection" and
returns `ok = false` with the cache still empty; advertise failure reports
"Failed to send advertise message", discards the fresh connection and
leaves the cache empty; success caches exactly the new stream and returns a
handle backed by it; and in general a successful request always returns a
handle backed by the live cached stream. -/
theorem client_pollhandle_reconnect (cached conn : Option Nat) (adv : Bool)
    (s : Nat) :
    (clientGetIpcPollHandle none none adv =
      ⟨false, none, none, ["Failed to connect to client connection"]⟩) ∧
    (clientGetIpcPollHandle none (some s) false =
      ⟨false, none, none, ["Failed to send advertise message"]⟩) ∧
    (clientGetIpcPollHandle none (some s) true = ⟨true, some s, some s, []⟩) ∧
    ((clientGetIpcPollHandle cached conn adv).ok = true →
      (clientGetIpcPollHandle cached conn adv).backing =
        (clientGetIpcPollHandle cached conn adv).cache ∧
      (clientGetIpcPollHandle cached conn adv).cache ≠ none) := by
  refine ⟨rfl, rfl, rfl, ?_⟩
  intro hok
  cases cached with
  | some w => exact ⟨rfl, by simp [clientGetIpcPollHandle]⟩
  | none =>
    cases conn with
    | none => exact absurd hok (by simp [clientGetIpcPollHandle])
    | some w =>
      cases adv with
      | true => exact ⟨rfl, by simp [clientGetIpcPollHandle]⟩
      | false => exact absurd hok (by simp [clientGetIpcPollHandle])

/-- Witness for `client_pollhandle_reconnect` at concrete inputs. -/
theorem client_pollhandle_reconnect_witness :
    (clientGetIpcPollHandle (some 9) none false).backing =
      (clientGetIpcPollHandle (some 9) none false).cache ∧
    (clientGetIpcPollHandle (some 9) none false).cache ≠ none := by
  exact (client_pollhandle_reconnect (some 9) none false 0).2.2.2 (by decide)

/-- **C8**.  `HasActiveConnections` is true if and only if the shutdown
flag is clear and some connection is registered; it is false on the initial
state, true right after any successful `CreateServer`/`CreateClient` in a
live state, and false after `Shutdown` no matter what was registered. -/
theorem hasActiveConnections_spec (st : FactoryState) (co lo : Bool) :
    (HasActiveConnections st = true ↔ st.isShutdown = false ∧ st.conns ≠ []) ∧
    (HasActiveConnections initialFactory = false) ∧
    (st.isShutdown = false → (CreateServer st co lo).2 = true →
      HasActiveConnections (CreateServer st co lo).1 = true) ∧
    (st.isShutdown = false → (CreateClient st co).2 = true →
      HasActiveConnections (CreateClient st co).1 = true) ∧
    (HasActiveConnections (Shutdown st).1 = false) := by
  refine ⟨?_, rfl, ?_, ?_, ?_⟩
  · constructor
    · intro h
      simp only [HasActiveConnections, Bool.and_eq_true, Bool.not_eq_true',
        decide_eq_true_eq] at h
      exact ⟨h.1, List.ne_nil_of_length_pos h.2⟩
    · rintro ⟨h1, h2⟩
      simp only [HasActiveConnections, Bool.and_eq_true, Bool.not_eq_true',
        decide_eq_true_eq]
      exact ⟨h1, List.length_pos.mpr h2⟩
  · intro h1 h2
    cases co with
    | false => exact absurd h2 (by simp [CreateServer])
    | true =>
      cases lo with
      | false => exact absurd h2 (by simp [CreateServer])
      | true => simp [CreateServer, HasActiveConnections, h1]
  · intro h1 h2
    cases co with
    | false => exact absurd h2 (by simp [CreateClient])
    | true => simp [CreateClient, HasActiveConnections, h1]
  · by_cases h : st.isShutdown = true
    · simp [Shutdown, h, HasActiveConnections]
    · simp [Shutdown, h, HasActiveConnections]

/-- Witness for `hasActiveConnections_spec`: one successful client
registration then shutdown. -/
theorem hasActiveConnections_spec_witness :
    HasActiveConnections (CreateClient initialFactory true).1 = true ∧
    HasActiveConnections (Shutdown (CreateClient initialFactory true).1).1 = false := by
  have h := hasActiveConnections_spec (CreateClient initialFactory true).1 true true
  have h0 := hasActiveConnections_spec initialFactory true true
  exact ⟨h0.2.2.2.1 rfl rfl, h.2.2.2.2⟩

/-- **C9**.  A handle whose classification is neither `HANGUP` nor
`SIGNALED` nor `ERR` (the `default` branch: `NONE` or an unknown pattern)
triggers nothing at all: processing the handle list with it in front equals
processing the rest from the very same state — no reset, no claim, no
timeout change, no termination. -/
theorem default_event_noop (p : PollParams) (e : RoundEnv)
    (hd : IpcPollHandle) (ev : PollEvents)
    (rest : List (IpcPollHandle × PollEvents)) (s : ScanState)
    (hev : ev = PollEvents.NONE ∨ ev = PollEvents.UNKNOWN) :
    processHandles p e ((hd, ev) :: rest) s = processHandles p e rest s := by
  rcases hev with h1 | h1 <;> subst h1 <;> rfl

/-- Witness for `default_event_noop` at a concrete handle and state. -/
theorem default_event_noop_witness :
    processHandles specParams envConnectFail
      [(IpcPollHandle.mk 0 none, PollEvents.NONE)] ⟨[], -1, none, [], []⟩ =
    processHandles specParams envConnectFail [] ⟨[], -1, none, [], []⟩ :=
  default_event_noop specParams envConnectFail (IpcPollHandle.mk 0 none)
    PollEvents.NONE [] ⟨[], -1, none, [], []⟩ (Or.inl rfl)

/-- With no connections registered a round is inert: no handles, the
`Infinite` timeout, no events to classify, and the loop goes around
again with an unchanged (empty) registry. -/
theorem doRound_nil (p : PollParams) (t : Int) (e : RoundEnv) :
    doRound p [] t e =
      { conns := [], fConnectSuccess := true, timeoutUsed := p.infiniteMs,
        nextTimeout := p.infiniteMs, scanned := [],
        outcome := RoundOutcome.cont, claims := [], resets := [],
        callbacks := [] } := by
  have hscan : roundScan p e [] t =
      (⟨[], p.infiniteMs, none, [], []⟩, false) := by
    rw [roundScan]
    split <;> rfl
  simp only [doRound, hscan]
  rfl

/-- With no connections registered the loop never returns and every round
polls the empty handle set with the `Infinite` timeout. -/
theorem run_nil_registry (p : PollParams) (envs : List RoundEnv) :
    ∀ t : Int, (run p envs [] t).2 = none ∧
      ∀ r ∈ (run p envs [] t).1,
        r.fConnectSuccess = true ∧ r.timeoutUsed = p.infiniteMs ∧
        r.scanned = [] ∧ r.outcome = RoundOutcome.cont ∧ r.conns = [] := by
  induction envs with
  | nil =>
    intro t
    exact ⟨rfl, by simp [run]⟩
  | cons e rest ih =>
    intro t
    have hd := doRound_nil p t e
    have ho : (doRound p [] t e).outcome = RoundOutcome.cont := by rw [hd]
    have hc : (doRound p [] t e).conns = [] := by rw [hd]
    have hn : (doRound p [] t e).nextTimeout = p.infiniteMs := by rw [hd]
    have h1 : (run p (e :: rest) [] t).1 =
        (doRound p [] t e) ::
          (run p rest (doRound p [] t e).conns
            (doRound p [] t e).nextTimeout).1 := by
      rw [run_cons, ho]
    have h2 : (run p (e :: rest) [] t).2 =
        (run p rest (doRound p [] t e).conns
          (doRound p [] t e).nextTimeout).2 := by
      rw [run_cons, ho]
    obtain ⟨ih2, ihr⟩ := ih p.infiniteMs
    constructor
    · rw [h2, hc, hn]
      exact ih2
    · intro r hr
      rw [h1] at hr
      rcases List.mem_cons.mp hr with h | h
      · subst h
        exact ⟨by rw [hd], by rw [hd], by rw [hd], ho, hc⟩
      · rw [hc, hn] at h
        exact ihr r h

/-- **C10**.  With no registered connections every iteration finds the
`all connections produced a poll handle` condition vacuously true, so
`Poll` is always invoked on an empty handle set with the `Infinite`
timeout; no backoff path is ever taken, the call never returns, and all
the while `HasActiveConnections` is false. -/
theorem empty_registry_spec (p : PollParams) (envs : List RoundEnv) (b : Bool) :
    (GetNextAvailableStream p envs []).2 = none ∧
    (∀ r ∈ (GetNextAvailableStream p envs []).1,
      r.fConnectSuccess = true ∧ r.timeoutUsed = p.infiniteMs ∧
      r.scanned = [] ∧ r.outcome = RoundOutcome.cont) ∧
    HasActiveConnections ⟨[], b⟩ = false := by
  obtain ⟨h2, hr⟩ := run_nil_registry p envs p.infiniteMs
  refine ⟨h2, ?_, by cases b <;> rfl⟩
  intro r hmem
  obtain ⟨hf, ht, hs, ho, _⟩ := hr r hmem
  exact ⟨hf, ht, hs, ho⟩

/-- Witness for `empty_registry_spec`: two rounds of environment behaviour,
the call still has not returned. -/
theorem empty_registry_spec_witness :
    (GetNextAvailableStream specParams [envHangup, envErr] []).2 = none :=
  (empty_registry_spec specParams [envHangup, envErr] false).1

end IpcStreamFactory
